import Mathlib

/-!
Verification of the jshunter pipeline (Go) against its specification.

This file gives a shallow embedding, in Lean 4, of the parts of the
jshunter source that the specification's claims talk about:

* the streamed line counter of the prettify stage
  (`internal/workers/prettify/binary.go`, `countLines`);
* the analyzer-result conversion and persistence of the analysis stage
  (`internal/workers/analysis/analyzer.go`, `convertToFindings`, and
  `internal/workers/analysis/job.go`, `saveFindings`);
* the worker-pool submission functions of every stage;
* the startup recovery sweep (`recoverPendingJobs`);
* the js-file registration paths of the extraction and dechunker stages;
* the js-file after-create / after-update hooks (`internal/db/hooks.go`)
  as a per-record transition system;
* the sourcemap resolution / validation pipeline (`ProcessSourceMap`)
  and the source-path sanitizers (`CleanSourcePath`, `sanitizeSourcePath`);
* the HTML structural hash (`internal/utils/html/html_comparator.go`).

Go strings are modelled as Lean `String`s, Go `int` as `Int`, byte
sequences as `List Nat`, and Go maps that are only ever looked up as
association lists.  External effects (HTTP fetches, the child
processes, the browser) enter as explicit oracle parameters.
-/

namespace JSHunter

/-! ## A model of JSON values

Go's `encoding/json` decodes into `map[string]interface{}` /
`[]interface{}` trees.  We model decoded JSON values by the inductive
type below.  Numbers are kept as integers (the only numeric field the
code inspects is the sourcemap `version`, compared against 1, and that
comparison only depends on the floor of the number). -/

inductive Json where
  | null : Json
  | bool (b : Bool) : Json
  | num (n : Int) : Json
  | str (s : String) : Json
  | arr (xs : List Json) : Json
  | obj (kvs : List (String × Json)) : Json
deriving Repr

mutual

def Json.beq : Json → Json → Bool
  | .null, .null => true
  | .bool a, .bool b => a == b
  | .num a, .num b => a == b
  | .str a, .str b => a == b
  | .arr a, .arr b => Json.beqList a b
  | .obj a, .obj b => Json.beqObj a b
  | _, _ => false

def Json.beqList : List Json → List Json → Bool
  | [], [] => true
  | x :: xs, y :: ys => Json.beq x y && Json.beqList xs ys
  | _, _ => false

def Json.beqObj : List (String × Json) → List (String × Json) → Bool
  | [], [] => true
  | (k, v) :: xs, (l, w) :: ys => k == l && Json.beq v w && Json.beqObj xs ys
  | _, _ => false

end

instance : BEq Json := ⟨Json.beq⟩

/-- Lookup of a key in a decoded JSON object.  Go maps keep the last
value written for a key, so the lookup takes the last binding. -/
def Json.lookup (kvs : List (String × Json)) (key : String) : Option Json :=
  (kvs.filter (fun kv => kv.fst == key)).getLast?.map (·.snd)

/-! ## Prettify stage: the streamed line counter

`countLines` (internal/workers/prettify/binary.go) reads the file in
32 KiB chunks, counts the `\n` bytes of every non-empty chunk and
remembers whether the chunk's final byte was a newline; at EOF it adds
one when the file did not end in a newline.  We model a file as a
`List Nat` of byte values and the sequence of successful `Read` calls
as a list of chunks whose concatenation is the file. -/

namespace Prettify

/-- Newline byte value. -/
def newline : Nat := 10

/-- The 32 KiB read buffer size of `countLines`. -/
def bufferSize : Nat := 32 * 1024

/-- Effect of one `file.Read` returning the chunk `chunk` on the loop
state `(lineCount, lastCharIsNewline)` of `countLines`: an empty read
leaves the state alone, a non-empty read adds the chunk's newline
count and records whether its final byte is a newline. -/
def countLinesStep (st : Nat × Bool) (chunk : List Nat) : Nat × Bool :=
  if chunk = [] then st
  else (st.1 + chunk.count newline, chunk.getLastD 0 == newline)

/-- The read loop of `countLines`: fold `countLinesStep` over the
chunks delivered by successive reads, starting from line count 0 and
`lastCharIsNewline = true`. -/
def countLinesLoop (chunks : List (List Nat)) : Nat × Bool :=
  chunks.foldl countLinesStep (0, true)

/-- The value `countLines` returns for a given sequence of read
chunks: the accumulated count, plus one when the final byte seen was
not a newline. -/
def countLinesChunks (chunks : List (List Nat)) : Nat :=
  let st := countLinesLoop chunks
  if st.2 then st.1 else st.1 + 1

/-- Split a byte list into successive chunks of at most `bufferSize`
bytes, the way the 32 KiB read buffer delivers a file. -/
def chunksOf (l : List Nat) : List (List Nat) :=
  if h : l = [] then []
  else l.take bufferSize :: chunksOf (l.drop bufferSize)
termination_by l.length
decreasing_by
  simp only [List.length_drop]
  have hl : 0 < l.length := List.length_pos.mpr h
  have hb : 0 < bufferSize := by norm_num [bufferSize]
  omega

/-- `countLines` on a file, modelled as the chunked loop run on the
file's 32 KiB chunks. -/
def countLines (data : List Nat) : Nat :=
  countLinesChunks (chunksOf data)

theorem flatten_chunksOf : ∀ (n : Nat) (l : List Nat), l.length ≤ n →
    (chunksOf l).flatten = l := by
  intro n
  induction n with
  | zero =>
      intro l h
      have hl : l = [] := List.eq_nil_of_length_eq_zero (Nat.le_zero.mp h)
      simp [chunksOf, hl]
  | succ n ih =>
      intro l h
      by_cases hl : l = []
      · simp [chunksOf, hl]
      · rw [chunksOf]
        simp only [hl, dite_false, List.flatten_cons]
        rw [ih (l.drop bufferSize) ?_, List.take_append_drop]
        have hpos : 0 < l.length := List.length_pos.mpr hl
        have hb : 0 < bufferSize := by norm_num [bufferSize]
        simp only [List.length_drop]
        omega

theorem countLinesStep_append (p : List Nat) (c : List Nat) :
    countLinesStep (p.count newline, p.getLastD newline == newline) c =
      ((p ++ c).count newline, (p ++ c).getLastD newline == newline) := by
  cases c with
  | nil => simp [countLinesStep]
  | cons x xs =>
      rcases hv : (x :: xs).getLast? with _ | v
      · simp [List.getLast?_eq_none_iff] at hv
      · have hne : (x :: xs) ≠ ([] : List Nat) := by simp
        have hpc : (p ++ x :: xs).getLast? = some v := by
          rw [List.getLast?_append, hv]
          rfl
        simp [countLinesStep, List.count_append, List.getLastD_eq_getLast?, hv, hpc]

theorem countLinesLoop_eq (chunks : List (List Nat)) (p : List Nat) :
    chunks.foldl countLinesStep (p.count newline, p.getLastD newline == newline) =
      ((p ++ chunks.flatten).count newline,
        (p ++ chunks.flatten).getLastD newline == newline) := by
  induction chunks generalizing p with
  | nil => simp
  | cons c cs ih =>
      simp only [List.foldl_cons, countLinesStep_append]
      rw [ih (p ++ c)]
      simp [List.append_assoc]

theorem countLinesChunks_eq (chunks : List (List Nat)) :
    countLinesChunks chunks =
      chunks.flatten.count newline +
        (if chunks.flatten ≠ [] ∧ chunks.flatten.getLastD newline ≠ newline then 1
         else 0) := by
  have h := countLinesLoop_eq chunks []
  simp only [List.nil_append] at h
  unfold countLinesChunks countLinesLoop
  rw [show ((0 : Nat), true) =
      ((([] : List Nat)).count newline, (([] : List Nat)).getLastD newline == newline) by
    simp [newline]]
  rw [h]
  by_cases hj : chunks.flatten = []
  · simp [hj]
  · simp only [hj, ne_eq, not_false_iff, true_and, beq_iff_eq]
    split <;> simp [*]

/-- C9 witness data: the bytes of `"a\nb"`. -/
def exampleFileBytes : List Nat := [97, 10, 98]

/-- C9.  `countLines` returns the number of newline bytes of the file,
plus one when the file is non-empty and its final byte is not a
newline; the empty file yields 0.  Stated both for the actual 32 KiB
chunked read sequence and for an arbitrary chunking of the file. -/
theorem countLines_spec (data : List Nat) :
    countLines data =
      data.count newline +
        (if data ≠ [] ∧ data.getLastD newline ≠ newline then 1 else 0) ∧
      ∀ chunks : List (List Nat), chunks.flatten = data →
        countLinesChunks chunks = countLines data := by
  have hflat : (chunksOf data).flatten = data := flatten_chunksOf data.length data le_rfl
  constructor
  · rw [countLines, countLinesChunks_eq, hflat]
  · intro chunks hc
    rw [countLines, countLinesChunks_eq, countLinesChunks_eq, hflat, hc]

/-- Witness for `countLines_spec` on the bytes of `"a\nb"`: one
newline, no trailing newline, so two lines, under any chunking. -/
theorem countLines_spec_witness :
    countLines exampleFileBytes = 2 ∧
      countLinesChunks [[97], [10, 98]] = countLines exampleFileBytes := by
  have h := countLines_spec exampleFileBytes
  exact ⟨h.1.trans (by decide), h.2 [[97], [10, 98]] (by decide)⟩

/-! ### The prettify worker's `processJob`

`processJob` (internal/workers/prettify/binary.go) guards its two
status writes with `job.Record != nil && job.Record.Id != ""`, so jobs
without a backing record are accepted.  But on the path where the
prettifier invocation fails, the error log line evaluates
`job.Record.Get("url")` before that guard runs. -/

/-- The record pointer of a prettify job (`nil` = `none`). -/
structure PrettifyRecord where
  id : String
  url : String
deriving Repr, DecidableEq

/-- What one `processJob` run does. -/
inductive PrettifyOutcome where
  /-- Dereferenced a nil record (Go runtime panic). -/
  | panickedNilDeref : PrettifyOutcome
  /-- Returned after setting `prettify_status = failed` on the record. -/
  | failedMarked : PrettifyOutcome
  /-- Returned on a failure path without touching any record. -/
  | failedSkipped : PrettifyOutcome
  /-- Set `line_count` and `prettify_status = processed`. -/
  | processedMarked (lineCount : Nat) : PrettifyOutcome
  /-- Succeeded on a record-less job without touching any record. -/
  | processedSkipped : PrettifyOutcome
deriving Repr, DecidableEq

/-- `processJob`: empty path → mark failed (guarded); prettifier
failure → log `job.Record.Get("url")` (dereferencing the record with
no nil check), then mark failed (guarded); success → count lines and
mark processed (guarded).  `prettifyFails` says whether the
prettifier invocation returned an error; `lineCount` is what
`countLines` returns on the prettified file. -/
def processJob (record : Option PrettifyRecord) (filePath : String)
    (prettifyFails : Bool) (lineCount : Nat) : PrettifyOutcome :=
  if filePath = "" then
    match record with
    | some r => if r.id ≠ "" then .failedMarked else .failedSkipped
    | none => .failedSkipped
  else if prettifyFails then
    match record with
    | none => .panickedNilDeref
    | some r => if r.id ≠ "" then .failedMarked else .failedSkipped
  else
    match record with
    | some r => if r.id ≠ "" then .processedMarked lineCount else .processedSkipped
    | none => .processedSkipped

/-- C10.  The claim that `processJob` never dereferences a nil record
fails on exactly one path: with a nil record and a failing prettifier
invocation, the error log dereferences the record (first conjunct,
evaluated at the concrete failing input); every other nil-record path
returns without touching it (second conjunct). -/
theorem processJob_nil_record_panics :
    processJob none "/tmp/x.js" true 7 = .panickedNilDeref ∧
      ∀ (filePath : String) (prettifyFails : Bool) (lineCount : Nat),
        filePath = "" ∨ prettifyFails = false →
        processJob none filePath prettifyFails lineCount ≠ .panickedNilDeref := by
  refine ⟨rfl, ?_⟩
  intro filePath prettifyFails lineCount h
  rcases h with h | h <;> simp [processJob, h] <;> split <;> simp

/-- Witness for `processJob_nil_record_panics`: a nil-record job whose
prettifier succeeds finishes without touching any record. -/
theorem processJob_nil_record_panics_witness :
    processJob none "/tmp/x.js" false 7 ≠ .panickedNilDeref :=
  processJob_nil_record_panics.2 "/tmp/x.js" false 7 (Or.inr rfl)

end Prettify

/-! ## Analysis stage: converting and persisting analyzer findings

The external analyzer reports five arrays of elements, each with a
`line` that may be 0 or negative.  `convertToFindings`
(internal/workers/analysis/analyzer.go) clamps the stored line to at
least 1 and keeps the raw value under `metadata.original_line`;
`saveFindings` (internal/workers/analysis/job.go) persists each
converted finding, skipping individual insert failures. -/

namespace Analysis

structure URLFinding where
  value : String
  line : Int
  column : Int
  type : String
  metadata : Json
deriving Repr

structure GQLFinding where
  value : String
  line : Int
  column : Int
  type : String
deriving Repr

structure DomXSSFinding where
  value : String
  line : Int
  column : Int
  type : String
deriving Repr

structure EventFinding where
  value : String
  line : Int
  column : Int
  type : String
deriving Repr

structure HttpFinding where
  value : String
  line : Int
  column : Int
  type : String
  url : String
  method : String
  options : Option Json
deriving Repr

structure NodeJSAnalyzerResult where
  urls : List URLFinding
  gql : List GQLFinding
  domxss : List DomXSSFinding
  events : List EventFinding
  httpapi : List HttpFinding
deriving Repr

/-- The `data` map built for a finding.  The Go code stores the keys
`finding_category` and `original_line` always, and the remaining keys
only for the categories noted in the field comments; absent keys are
`none`. -/
structure FindingData where
  finding_category : String
  original_line : Int
  metadata : Option Json := none
  security_risk : Option String := none
  url : Option String := none
  method : Option String := none
  options : Option Json := none
deriving Repr

structure Finding where
  type : String
  line : Int
  column : Int
  value : String
  data : FindingData
deriving Repr

/-- `convertToFindings`: the five conversion loops, in source order.
Each loop clamps `line` to 1 when the analyzer reported a value ≤ 0
and stores the raw value under `original_line`. -/
def convertToFindings (result : NodeJSAnalyzerResult) : List Finding :=
  (result.urls.map fun f =>
    { type := f.type
      line := if f.line ≤ 0 then 1 else f.line
      column := f.column
      value := f.value
      data := { finding_category := "url"
                metadata := some f.metadata
                original_line := f.line } }) ++
  (result.gql.map fun f =>
    { type := f.type
      line := if f.line ≤ 0 then 1 else f.line
      column := f.column
      value := f.value
      data := { finding_category := "graphql"
                original_line := f.line } }) ++
  (result.domxss.map fun f =>
    { type := f.type
      line := if f.line ≤ 0 then 1 else f.line
      column := f.column
      value := f.value
      data := { finding_category := "domxss"
                security_risk := some "high"
                original_line := f.line } }) ++
  (result.events.map fun f =>
    { type := f.type
      line := if f.line ≤ 0 then 1 else f.line
      column := f.column
      value := f.value
      data := { finding_category := "event"
                original_line := f.line } }) ++
  (result.httpapi.map fun f =>
    { type := f.type
      line := if f.line ≤ 0 then 1 else f.line
      column := f.column
      value := f.value
      data := { finding_category := "httpapi"
                original_line := f.line
                url := if f.url ≠ "" then some f.url else none
                method := if f.method ≠ "" then some f.method else none
                options := f.options } })

/-- A persisted `finding` row. -/
structure FindingRecord where
  type : String
  line : Int
  column : Int
  value : String
  js_file : String
  metadata : FindingData
deriving Repr

/-- `saveFindings`: persist each finding, continuing past individual
insert failures.  `saveOk i` tells whether the insert of the i-th
finding succeeds (the record-store oracle). -/
def saveFindings (saveOk : Nat → Bool) (jsFileID : String)
    (findings : List Finding) : List FindingRecord :=
  (findings.enum.filter fun p => saveOk p.fst).map fun p =>
    { type := p.snd.type
      line := p.snd.line
      column := p.snd.column
      value := p.snd.value
      js_file := jsFileID
      metadata := p.snd.data }

theorem convertToFindings_line_clamped (result : NodeJSAnalyzerResult) :
    ∀ f ∈ convertToFindings result,
      f.line = max f.data.original_line 1 ∧ 1 ≤ f.line := by
  intro f hf
  simp only [convertToFindings, List.mem_append, List.mem_map] at hf
  rcases hf with ((((⟨x, _, rfl⟩ | ⟨x, _, rfl⟩) | ⟨x, _, rfl⟩) | ⟨x, _, rfl⟩) | ⟨x, _, rfl⟩) <;>
    refine ⟨?_, ?_⟩ <;> simp only [] <;> split <;> omega

/-- The `original_line` values stored by `convertToFindings` are
exactly the raw analyzer lines, in order. -/
theorem convertToFindings_original_lines (result : NodeJSAnalyzerResult) :
    (convertToFindings result).map (fun f => f.data.original_line) =
      result.urls.map (·.line) ++ result.gql.map (·.line) ++
        result.domxss.map (·.line) ++ result.events.map (·.line) ++
        result.httpapi.map (·.line) := by
  simp [convertToFindings, List.map_map, Function.comp_def]

/-- C4.  Every finding persisted by the analysis stage stores
`line = max(raw_line, 1)` with the raw analyzer line kept under
`metadata.original_line`, hence `line ≥ 1`; and the `original_line`
values are exactly the lines the analyzer reported, in order. -/
theorem findings_persisted_line_clamped (result : NodeJSAnalyzerResult)
    (saveOk : Nat → Bool) (jsFileID : String) :
    (∀ rec ∈ saveFindings saveOk jsFileID (convertToFindings result),
        rec.line = max rec.metadata.original_line 1 ∧ 1 ≤ rec.line) ∧
      (convertToFindings result).map (fun f => f.data.original_line) =
        result.urls.map (·.line) ++ result.gql.map (·.line) ++
          result.domxss.map (·.line) ++ result.events.map (·.line) ++
          result.httpapi.map (·.line) := by
  refine ⟨?_, convertToFindings_original_lines result⟩
  intro rec hrec
  simp only [saveFindings, List.mem_map, List.mem_filter] at hrec
  obtain ⟨⟨i, f⟩, ⟨hmem, _⟩, rfl⟩ := hrec
  have hf : f ∈ convertToFindings result := by
    have h2 := List.mem_enum hmem
    exact List.mem_iff_getElem.mpr ⟨i, h2.1, h2.2.symm⟩
  simpa using convertToFindings_line_clamped result f hf

/-- An analyzer run reporting a single DOM-XSS sink at raw line 0. -/
def exampleAnalyzerResult : NodeJSAnalyzerResult :=
  { urls := [], gql := [],
    domxss := [{ value := "document.write", line := 0, column := 3, type := "sink" }],
    events := [], httpapi := [] }

/-- The row `saveFindings` persists for `exampleAnalyzerResult`. -/
def exampleFindingRecord : FindingRecord :=
  { type := "sink", line := 1, column := 3, value := "document.write",
    js_file := "js1",
    metadata := { finding_category := "domxss", original_line := 0,
                  security_risk := some "high" } }

/-- Witness for `findings_persisted_line_clamped`: the sink reported
at raw line 0 is persisted with line 1 and `original_line = 0`. -/
theorem findings_persisted_line_clamped_witness :
    exampleFindingRecord.line = max exampleFindingRecord.metadata.original_line 1 ∧
      1 ≤ exampleFindingRecord.line :=
  (findings_persisted_line_clamped exampleAnalyzerResult (fun _ => true) "js1").1
    exampleFindingRecord
    (by simp [saveFindings, convertToFindings, exampleAnalyzerResult,
      exampleFindingRecord, List.enum])

end Analysis

/-! ## Worker-pool submission

Every stage owns a pool with the same shape: a bounded channel of
jobs, a cancellable context, an `isRunning` flag under a read-write
lock.  `Stop()` (under the write lock) cancels the context, closes the
channel and clears the flag, so any observer of the lock sees either a
running pool with an open channel and live context, or a stopped pool.

The prettify, analysis, and dechunker stages submit through a
`SubmitJob` method that takes the read lock, rejects when the flag is
down, and then runs a three-way `select` (send / `ctx.Done()` /
`default`).  The extraction and sourcemap stages instead submit
through `AddExtractionJob` / `AddSourcemapJob`, which only check that
the global pool pointer is set and then run a two-way `select` (send /
`default`) directly on the channel, with no look at the running flag.
In Go, a send on a closed channel is always ready and panics when
chosen, so the two-way `select` on a stopped pool's closed channel
panics rather than reporting an error. -/

namespace Pools

/-- State of one worker pool, as observed under its lock. -/
structure PoolState (Job : Type) where
  isRunning : Bool
  ctxDone : Bool
  queueClosed : Bool
  queue : List Job
  capacity : Nat
deriving Repr

/-- Possible outcomes of a submission attempt. -/
inductive SubmitResult where
  | enqueued : SubmitResult
  | errNotRunning : SubmitResult
  | errShuttingDown : SubmitResult
  | errQueueFull : SubmitResult
  | errNotInitialized : SubmitResult
  | panicked : SubmitResult
deriving Repr, DecidableEq

/-- The shared `select` of a send case over the job channel plus a
`default` case, as run by `AddExtractionJob` and `AddSourcemapJob`: a
send on a closed channel is ready and panics when chosen; a send on an
open channel is ready exactly when there is room; `default` fires only
when the send is not ready. -/
def selectSendDefault {Job : Type} (p : PoolState Job) (j : Job) :
    SubmitResult × PoolState Job :=
  if p.queueClosed then (.panicked, p)
  else if p.queue.length < p.capacity then (.enqueued, { p with queue := p.queue ++ [j] })
  else (.errQueueFull, p)

/-- `SubmitJob` of the prettify / analysis / dechunker pools: under
the read lock, fail `NotRunning` when the flag is down, otherwise run
the three-way `select`.  Because `Stop()` holds the write lock while
it cancels and closes, a pool seen running has a live context and open
channel, so the send case decides between enqueue and `default`
(`QueueFull`); the `ctx.Done()` case fires when the context is
cancelled and the queue is full. -/
def submitJob {Job : Type} (p : PoolState Job) (j : Job) :
    SubmitResult × PoolState Job :=
  if ¬p.isRunning then (.errNotRunning, p)
  else if p.queueClosed then (.panicked, p)
  else if p.queue.length < p.capacity then (.enqueued, { p with queue := p.queue ++ [j] })
  else if p.ctxDone then (.errShuttingDown, p)
  else (.errQueueFull, p)

/-- `AddSourcemapJob` (sourcemap stage): only the nil check on the
global pool pointer guards the two-way `select`; the running flag is
never consulted. -/
def addSourcemapJob {Job : Type} (pool : Option (PoolState Job)) (j : Job) :
    SubmitResult × Option (PoolState Job) :=
  match pool with
  | none => (.errNotInitialized, none)
  | some p =>
      let r := selectSendDefault p j
      (r.1, some r.2)

/-- `AddExtractionJob` (extraction stage): same shape as
`AddSourcemapJob` — nil check, then the two-way `select`. -/
def addExtractionJob {Job : Type} (pool : Option (PoolState Job)) (j : Job) :
    SubmitResult × Option (PoolState Job) :=
  match pool with
  | none => (.errNotInitialized, none)
  | some p =>
      let r := selectSendDefault p j
      (r.1, some r.2)

/-- Lock discipline: `Stop()` runs entirely under the write lock, so a
pool observed with its running flag up has a live context and an open
channel. -/
def WellLocked {Job : Type} (p : PoolState Job) : Prop :=
  p.isRunning = true → p.ctxDone = false ∧ p.queueClosed = false

/-- The state of the sourcemap pool after `Stop()`: flag down, context
cancelled, channel closed. -/
def stoppedSourcemapPool : PoolState Unit :=
  { isRunning := false, ctxDone := true, queueClosed := true, queue := [], capacity := 400 }

/-- Counterexample to C6 as stated: the sourcemap stage's submission
function on a stopped pool does not return a `NotRunning` error — the
send case of its two-way `select` hits the closed channel and panics. -/
theorem addSourcemapJob_stopped_not_notRunning :
    (addSourcemapJob (some stoppedSourcemapPool) ()).1 = .panicked ∧
      (addSourcemapJob (some stoppedSourcemapPool) ()).1 ≠ .errNotRunning := by
  constructor
  · rfl
  · decide

/-- C6, amended.  Submission never blocks for any pool.  For the
prettify / analysis / dechunker pools (`submitJob`): under the lock
discipline, a running pool enqueues when there is room and returns
`QueueFull` when the queue is at capacity, and a stopped pool returns
`NotRunning`; nothing but the queue is touched, so no record status
changes.  For the extraction / sourcemap direct submitters, an
initialized pool with an open channel enqueues when there is room and
returns `QueueFull` at capacity; but a stopped pool makes them panic
rather than return `NotRunning`. -/
theorem submit_nonblocking {Job : Type} (p : PoolState Job) (j : Job)
    (hlock : WellLocked p) :
    (p.isRunning = false → submitJob p j = (.errNotRunning, p)) ∧
      (p.isRunning = true → p.queue.length < p.capacity →
        submitJob p j = (.enqueued, { p with queue := p.queue ++ [j] })) ∧
      (p.isRunning = true → ¬p.queue.length < p.capacity →
        submitJob p j = (.errQueueFull, p)) ∧
      (p.queueClosed = false → p.queue.length < p.capacity →
        addSourcemapJob (some p) j =
          (.enqueued, some { p with queue := p.queue ++ [j] }) ∧
        addExtractionJob (some p) j =
          (.enqueued, some { p with queue := p.queue ++ [j] })) ∧
      (p.queueClosed = false → ¬p.queue.length < p.capacity →
        addSourcemapJob (some p) j = (.errQueueFull, some p) ∧
        addExtractionJob (some p) j = (.errQueueFull, some p)) ∧
      (p.queueClosed = true →
        addSourcemapJob (some p) j = (.panicked, some p) ∧
        addExtractionJob (some p) j = (.panicked, some p)) := by
  refine ⟨?_, ?_, ?_, ?_, ?_, ?_⟩
  · intro hrun
    simp [submitJob, hrun]
  · intro hrun hroom
    obtain ⟨hc, hq⟩ := hlock hrun
    simp [submitJob, hrun, hc, hq, hroom]
  · intro hrun hfull
    obtain ⟨hc, hq⟩ := hlock hrun
    simp [submitJob, hrun, hc, hq, hfull]
  · intro hq hroom
    constructor <;> simp [addSourcemapJob, addExtractionJob, selectSendDefault, hq, hroom]
  · intro hq hfull
    constructor <;> simp [addSourcemapJob, addExtractionJob, selectSendDefault, hq, hfull]
  · intro hq
    constructor <;> simp [addSourcemapJob, addExtractionJob, selectSendDefault, hq]

/-- A running pool whose queue is at capacity. -/
def fullPool : PoolState Unit :=
  { isRunning := true, ctxDone := false, queueClosed := false, queue := [()], capacity := 1 }

/-- Witness for `submit_nonblocking` at a concrete full running pool:
submission returns `QueueFull` and leaves the pool (hence every
record's status) unchanged. -/
theorem submit_nonblocking_witness :
    WellLocked fullPool ∧ submitJob fullPool () = (.errQueueFull, fullPool) := by
  have h := submit_nonblocking fullPool () (by intro h; exact ⟨rfl, rfl⟩)
  exact ⟨by intro h; exact ⟨rfl, rfl⟩, h.2.2.1 rfl (by decide)⟩

end Pools

/-! ## Content hashing

`hash.GenerateSha256Hash` (internal/utils/hash/hash.go) is the hex
encoding of the SHA-256 digest of the UTF-8 bytes of its argument.
We implement SHA-256 (FIPS 180-4) over `List Nat` byte values, with
32-bit words as `Nat` reduced modulo `2^32`. -/

namespace Hashing

def mask32 : Nat := 2 ^ 32

/-- Right rotation of a 32-bit word. -/
def rotr32 (n x : Nat) : Nat :=
  ((x >>> n) ||| (x <<< (32 - n))) % mask32

/-- Bitwise complement of a 32-bit word. -/
def not32 (x : Nat) : Nat := x ^^^ (mask32 - 1)

def ch32 (x y z : Nat) : Nat := (x &&& y) ^^^ (not32 x &&& z)

def maj32 (x y z : Nat) : Nat := (x &&& y) ^^^ (x &&& z) ^^^ (y &&& z)

def bigSigma0 (x : Nat) : Nat := rotr32 2 x ^^^ rotr32 13 x ^^^ rotr32 22 x

def bigSigma1 (x : Nat) : Nat := rotr32 6 x ^^^ rotr32 11 x ^^^ rotr32 25 x

def smallSigma0 (x : Nat) : Nat := rotr32 7 x ^^^ rotr32 18 x ^^^ (x >>> 3)

def smallSigma1 (x : Nat) : Nat := rotr32 17 x ^^^ rotr32 19 x ^^^ (x >>> 10)

/-- Value of one lowercase hexadecimal digit. -/
def hexDigitValue (c : Char) : Nat :=
  if c.isDigit then c.toNat - 48 else c.toNat - 87

/-- Decode a packed string of 8-hex-digit words into 32-bit values. -/
def wordsOfHex (s : String) : List Nat :=
  (List.range (s.length / 8)).map fun i =>
    ((s.toList.drop (8 * i)).take 8).foldl (fun a c => a * 16 + hexDigitValue c) 0

/-- The SHA-256 round constants (FIPS 180-4, packed as hex). -/
def shaK : List Nat :=
  wordsOfHex <|
    "428a2f9871374491b5c0fbcfe9b5dba53956c25b59f111f1923f82a4ab1c5ed5" ++
    "d807aa9812835b01243185be550c7dc372be5d7480deb1fe9bdc06a7c19bf174" ++
    "e49b69c1efbe47860fc19dc6240ca1cc2de92c6f4a7484aa5cb0a9dc76f988da" ++
    "983e5152a831c66db00327c8bf597fc7c6e00bf3d5a7914706ca635114292967" ++
    "27b70a852e1b21384d2c6dfc53380d13650a7354766a0abb81c2c92e92722c85" ++
    "a2bfe8a1a81a664bc24b8b70c76c51a3d192e819d6990624f40e3585106aa070" ++
    "19a4c1161e376c082748774c34b0bcb5391c0cb34ed8aa4a5b9cca4f682e6ff3" ++
    "748f82ee78a5636f84c878148cc7020890befffaa4506cebbef9a3f7c67178f2"

/-- The SHA-256 initial hash value (FIPS 180-4, packed as hex). -/
def shaH0 : List Nat :=
  wordsOfHex "6a09e667bb67ae853c6ef372a54ff53a510e527f9b05688c1f83d9ab5be0cd19"

/-- Big-endian byte decomposition of a value into `n` bytes. -/
def toBytesBE (n : Nat) (v : Nat) : List Nat :=
  (List.range n).map fun i => (v >>> (8 * (n - 1 - i))) % 256

/-- Message padding: a 0x80 byte, zeros to 56 mod 64, and the bit
length as an 8-byte big-endian value. -/
def shaPad (msg : List Nat) : List Nat :=
  msg ++ [0x80] ++ List.replicate ((64 + 56 - (msg.length + 1) % 64) % 64) 0 ++
    toBytesBE 8 (8 * msg.length)

/-- Split the padded message into 64-byte blocks. -/
def shaBlocks (l : List Nat) : List (List Nat) :=
  if h : l = [] then []
  else l.take 64 :: shaBlocks (l.drop 64)
termination_by l.length
decreasing_by
  simp only [List.length_drop]
  have : 0 < l.length := List.length_pos.mpr h
  omega

/-- The sixteen 32-bit big-endian words of one block. -/
def blockWords (block : List Nat) : List Nat :=
  (List.range 16).map fun i =>
    block.getD (4 * i) 0 <<< 24 ||| block.getD (4 * i + 1) 0 <<< 16 |||
      block.getD (4 * i + 2) 0 <<< 8 ||| block.getD (4 * i + 3) 0

/-- Extend sixteen words to the 64-entry message schedule. -/
def shaSchedule (w16 : List Nat) : List Nat :=
  (List.range 48).foldl
    (fun w _ =>
      w ++ [(smallSigma1 (w.getD (w.length - 2) 0) + w.getD (w.length - 7) 0 +
              smallSigma0 (w.getD (w.length - 15) 0) + w.getD (w.length - 16) 0) % mask32])
    w16

/-- One SHA-256 round. -/
def shaRound (st : Nat × Nat × Nat × Nat × Nat × Nat × Nat × Nat) (kw : Nat × Nat) :
    Nat × Nat × Nat × Nat × Nat × Nat × Nat × Nat :=
  let (a, b, c, d, e, f, g, h) := st
  let t1 := (h + bigSigma1 e + ch32 e f g + kw.1 + kw.2) % mask32
  let t2 := (bigSigma0 a + maj32 a b c) % mask32
  ((t1 + t2) % mask32, a, b, c, (d + t1) % mask32, e, f, g)

/-- Compress one block into the running hash (a list of 8 words). -/
def shaCompress (H : List Nat) (block : List Nat) : List Nat :=
  let ws := shaSchedule (blockWords block)
  let init := (H.getD 0 0, H.getD 1 0, H.getD 2 0, H.getD 3 0,
               H.getD 4 0, H.getD 5 0, H.getD 6 0, H.getD 7 0)
  let (a, b, c, d, e, f, g, h) := (shaK.zip ws).foldl shaRound init
  [(H.getD 0 0 + a) % mask32, (H.getD 1 0 + b) % mask32,
   (H.getD 2 0 + c) % mask32, (H.getD 3 0 + d) % mask32,
   (H.getD 4 0 + e) % mask32, (H.getD 5 0 + f) % mask32,
   (H.getD 6 0 + g) % mask32, (H.getD 7 0 + h) % mask32]

/-- SHA-256 digest (32 bytes) of a byte sequence. -/
def sha256Bytes (msg : List Nat) : List Nat :=
  ((shaBlocks (shaPad msg)).foldl shaCompress shaH0).flatMap (toBytesBE 4)

def hexDigit (n : Nat) : Char :=
  if n < 10 then Char.ofNat (48 + n) else Char.ofNat (87 + n)

def bytesToHex (bs : List Nat) : String :=
  String.mk (bs.flatMap fun b => [hexDigit (b / 16), hexDigit (b % 16)])

/-- UTF-8 encoding of one character. -/
def charUtf8 (c : Char) : List Nat :=
  let n := c.toNat
  if n < 0x80 then [n]
  else if n < 0x800 then [0xc0 + n / 64, 0x80 + n % 64]
  else if n < 0x10000 then [0xe0 + n / 4096, 0x80 + n / 64 % 64, 0x80 + n % 64]
  else [0xf0 + n / 262144, 0x80 + n / 4096 % 64, 0x80 + n / 64 % 64, 0x80 + n % 64]

/-- The UTF-8 bytes of a string, as Go's `[]byte(str)`. -/
def strBytes (s : String) : List Nat :=
  s.toList.flatMap charUtf8

/-- `hash.GenerateSha256Hash`: hex-encoded SHA-256 of the string's
bytes. -/
def generateSha256Hash (s : String) : String :=
  bytesToHex (sha256Bytes (strBytes s))

end Hashing

/-! ## Filesystem paths

`internal/utils/filesystem/filesystem.go` cleans URL hostnames and
sourcemap source paths for filesystem use, and the storage package
builds the content-addressed file locations from them.  Character
operations run on `List Char`. -/

namespace Filesystem

/-- The character class `[<>:"/\\|?*\x00-\x1f]` replaced by `_` in
`CleanPath` and `CleanPathComponent`. -/
def isInvalidPathChar (c : Char) : Bool :=
  c == '<' || c == '>' || c == ':' || c == '"' || c == '/' || c == '\\' ||
    c == '|' || c == '?' || c == '*' || decide (c.toNat ≤ 0x1f)

def replaceInvalidChars (l : List Char) : List Char :=
  l.map fun c => if isInvalidPathChar c then '_' else c

/-- Worker for `collapseDots`; the flag records whether the previous
character was a dot (in which case further dots of the same run are
dropped). -/
def collapseDotsAux (prevDot : Bool) (l : List Char) : List Char :=
  match l with
  | [] => []
  | c :: rest =>
      if c = '.' then
        if prevDot then collapseDotsAux true rest
        else '.' :: collapseDotsAux true rest
      else c :: collapseDotsAux false rest

/-- Replace every run of two or more dots with a single dot (regex
`\.{2,}` → `.`; a lone dot maps to itself, so every maximal dot run
collapses to its first dot). -/
def collapseDots (l : List Char) : List Char :=
  collapseDotsAux false l

def isDotOrSpace (c : Char) : Bool := c == '.' || c == ' '

/-- `strings.Trim(s, ". ")`: drop dots and spaces from both ends. -/
def trimDotsSpaces (l : List Char) : List Char :=
  ((l.dropWhile isDotOrSpace).reverse.dropWhile isDotOrSpace).reverse

def replaceSpaces (l : List Char) : List Char :=
  l.map fun c => if c = ' ' then '_' else c

/-- `CleanPathComponent`: replace invalid characters, collapse dot
runs, trim dots and spaces from the ends, turn spaces into
underscores, truncate to 50. -/
def cleanPathComponent (s : String) : String :=
  if s = "" then ""
  else
    String.mk ((replaceSpaces (trimDotsSpaces (collapseDots
      (replaceInvalidChars s.toList)))).take 50)

/-- `s` starts with `sub` (kernel-evaluable `strings.HasPrefix`). -/
def startsWithStr (s sub : String) : Bool :=
  sub.toList.isPrefixOf s.toList

/-- Drop the first `n` characters of a string. -/
def dropStr (s : String) (n : Nat) : String :=
  String.mk (s.toList.drop n)

/-- `CleanPath`: the same pipeline on a whole path string (protocol
prefixes stripped first, `unknown` for empty or dot-only results,
truncation to 100). -/
def cleanPath (s : String) : String :=
  if s = "" then "unknown"
  else
    let s1 := if startsWithStr s "http://" then dropStr s 7
              else if startsWithStr s "https://" then dropStr s 8
              else if startsWithStr s "ftp://" then dropStr s 6
              else s
    let cleaned := String.mk (replaceSpaces (trimDotsSpaces (collapseDots
      (replaceInvalidChars s1.toList))))
    if cleaned = "" ∨ cleaned = "." ∨ cleaned = ".." then "unknown"
    else String.mk (cleaned.toList.take 100)

/-- Split a character list at a separator character. -/
def splitOnChar (sep : Char) (l : List Char) : List (List Char) :=
  match l with
  | [] => [[]]
  | c :: rest =>
      let r := splitOnChar sep rest
      if c = sep then [] :: r
      else (c :: r.headD []) :: r.tail

/-- The component list built by `CleanSourcePath`: strip one leading
`/`, `./`, `../` (in that order), split on `/`, clean every component,
and drop components that cleaned to ``""``, `"."`, or `".."`. -/
def cleanSourceComponents (path : String) : List String :=
  let p1 := if startsWithStr path "/" then dropStr path 1 else path
  let p2 := if startsWithStr p1 "./" then dropStr p1 2 else p1
  let p3 := if startsWithStr p2 "../" then dropStr p2 3 else p2
  ((splitOnChar '/' p3.toList).map (fun c => cleanPathComponent (String.mk c))).filter
    fun c => c ≠ "" && c ≠ "." && c ≠ ".."

/-- Join path components with `/` separators (`filepath.Join` on
components that contain no separator and no dot segments). -/
def joinComponents : List String → String
  | [] => ""
  | [c] => c
  | c :: rest => c ++ "/" ++ joinComponents rest

/-- `CleanSourcePath`: the cleaned components joined with `/`
(`filepath.Join`), or `unknown.js` when empty or nothing survives. -/
def cleanSourcePath (path : String) : String :=
  if path = "" then "unknown.js"
  else
    match cleanSourceComponents path with
    | [] => "unknown.js"
    | comps => joinComponents comps

end Filesystem

/-! ## URL parsing

The `internal/utils/url` package (`RemoveQueryString`, `ToAbsoluteURL`,
`DecodeDataURI`, `GetFileNameFromUrl`) and `filesystem.ExtractDomain`
work through Go's `net/url`.  `urlParse` embeds `url.Parse` with its
failure modes — ASCII control characters, a leading `:` (missing
protocol scheme), a colon in the first segment of a scheme-less
relative path, an invalid port, a host missing its `]`, invalid
userinfo characters, and invalid percent-escapes in userinfo, host,
path or fragment (the query is stored raw, unvalidated) — and
`urlString`, `hostname` and `resolveReference` embed `URL.String`,
`URL.Hostname` and `URL.ResolveReference`. -/

namespace Urls

/-- A parsed `url.URL`, on the fields the repository touches.
`rawPath` keeps the path as written (Go's escaped path), `path` its
percent-decoded form (Go's `Path`); `opq` is Go's `Opaque`;
`omitHost` records a `scheme:/path` form whose `String` omits the
empty `//`. -/
structure URL where
  scheme : String := ""
  opq : String := ""
  user : Option String := none
  omitHost : Bool := false
  host : String := ""
  rawPath : String := ""
  path : String := ""
  query : String := ""
  forceQuery : Bool := false
  fragment : String := ""
deriving Repr, DecidableEq

def isUpper (c : Char) : Bool := 'A' ≤ c && c ≤ 'Z'

def isLower (c : Char) : Bool := 'a' ≤ c && c ≤ 'z'

def isAlpha (c : Char) : Bool := isUpper c || isLower c

def isDigitChar (c : Char) : Bool := '0' ≤ c && c ≤ '9'

/-- `net/url` rejects URLs containing an ASCII control byte. -/
def isCtl (c : Char) : Bool := decide (c.toNat < 0x20) || c == '\x7f'

def isHexDigitChar (c : Char) : Bool :=
  isDigitChar c || ('a' ≤ c && c ≤ 'f') || ('A' ≤ c && c ≤ 'F')

def hexNibble (c : Char) : Nat :=
  if isDigitChar c then c.toNat - 48
  else if 'a' ≤ c && c ≤ 'f' then c.toNat - 87
  else c.toNat - 55

/-- `url.unescape`: validate `%xx` escapes and decode them; an
incomplete or non-hex escape is a parse error (`none`). -/
def percentDecode : List Char → Option (List Char)
  | [] => some []
  | '%' :: a :: b :: rest =>
      if isHexDigitChar a && isHexDigitChar b then
        (percentDecode rest).map fun r =>
          Char.ofNat (hexNibble a * 16 + hexNibble b) :: r
      else none
  | '%' :: _ => none
  | c :: rest => (percentDecode rest).map (c :: ·)

/-- The scan inside `getScheme`: valid scheme characters (a letter
first, then letters, digits, `+`, `-`, `.`) up to a `:` give the
lowercased scheme; any other shape means the URL has no scheme. -/
def getSchemeAux (orig : List Char) : Bool → List Char → List Char → String × List Char
  | _, _, [] => ("", orig)
  | first, acc, c :: rest =>
      if isAlpha c then getSchemeAux orig false (c :: acc) rest
      else if isDigitChar c || c == '+' || c == '-' || c == '.' then
        if first then ("", orig)
        else getSchemeAux orig false (c :: acc) rest
      else if c = ':' then (String.mk (acc.reverse.map Char.toLower), rest)
      else ("", orig)

/-- `getScheme`: `none` is the `missing protocol scheme` error (a
leading `:`); otherwise the scheme (empty when the URL has none) and
the rest. -/
def getScheme (l : List Char) : Option (String × List Char) :=
  match l with
  | ':' :: _ => none
  | _ => some (getSchemeAux l true [] l)

/-- `validOptionalPort`: empty, or `:` followed by digits only. -/
def validOptionalPort (port : List Char) : Bool :=
  match port with
  | [] => true
  | ':' :: rest => rest.all isDigitChar
  | _ => false

/-- `parseHost`: a bracketed host needs its `]` and takes its
optional port after it, an unbracketed host takes it after the last
`:`; the port must validate, and the host's percent-escapes decode
(Go stores the host unescaped). -/
def parseHost (host : List Char) : Option (List Char) :=
  match host with
  | '[' :: _ =>
      let r := host.reverse
      if (r.dropWhile fun c => ¬ c = ']') = [] then none
      else if validOptionalPort (r.takeWhile fun c => ¬ c = ']').reverse then
        percentDecode host
      else none
  | _ =>
      if (host.dropWhile fun c => ¬ c = ':') = [] then percentDecode host
      else if validOptionalPort
          (':' :: (host.reverse.takeWhile fun c => ¬ c = ':').reverse) then
        percentDecode host
      else none

/-- `validUserinfo`: the characters RFC 3986 allows in userinfo. -/
def isUserinfoChar (c : Char) : Bool :=
  isAlpha c || isDigitChar c ||
    c == '-' || c == '.' || c == '_' || c == ':' || c == '~' || c == '!' ||
    c == '$' || c == '&' || c == Char.ofNat 39 || c == '(' || c == ')' ||
    c == '*' || c == '+' || c == ',' || c == ';' || c == '=' || c == '%' ||
    c == '@'

/-- `parseAuthority`: split the optional `userinfo@` at the last `@`,
validate the userinfo and its escapes, and parse the host. -/
def parseAuthority (authority : List Char) : Option (Option String × List Char) :=
  let r := authority.reverse
  if (r.dropWhile fun c => ¬ c = '@') = [] then
    (parseHost authority).map fun h => (none, h)
  else
    let host := (r.takeWhile fun c => ¬ c = '@').reverse
    let userinfo := ((r.dropWhile fun c => ¬ c = '@').drop 1).reverse
    if userinfo.all isUserinfoChar then
      match percentDecode userinfo with
      | none => none
      | some _ => (parseHost host).map fun h => (some (String.mk userinfo), h)
    else none

/-- `net/url.parse` (with `viaRequest = false`), on the pre-fragment
part of the URL. -/
def parse (rawURL : List Char) : Option URL :=
  if rawURL.any isCtl then none
  else if rawURL = ['*'] then some { path := "*", rawPath := "*" }
  else
    match getScheme rawURL with
    | none => none
    | some (scheme, afterScheme) =>
        let forceQuery : Bool :=
          (afterScheme.getLast? == some '?') &&
            afterScheme.dropLast.all fun c => !(c == '?')
        let rest := if forceQuery then afterScheme.dropLast
                    else afterScheme.takeWhile fun c => ¬ c = '?'
        let query := if forceQuery then []
                     else (afterScheme.dropWhile fun c => ¬ c = '?').drop 1
        if ¬ rest.headD ' ' = '/' ∧ scheme ≠ "" then
          some { scheme := scheme, opq := String.mk rest,
                 query := String.mk query, forceQuery := forceQuery }
        else if ¬ rest.headD ' ' = '/' ∧ scheme = "" ∧
            ((rest.takeWhile fun c => ¬ c = '/').any fun c => c = ':') then none
        else if (scheme ≠ "" ∨ ¬ "///".toList.isPrefixOf rest) ∧
            "//".toList.isPrefixOf rest then
          let afterSlashes := rest.drop 2
          let authority := afterSlashes.takeWhile fun c => ¬ c = '/'
          let rest2 := afterSlashes.dropWhile fun c => ¬ c = '/'
          match parseAuthority authority with
          | none => none
          | some (user, host) =>
              match percentDecode rest2 with
              | none => none
              | some decoded =>
                  some { scheme := scheme, user := user, host := String.mk host,
                         rawPath := String.mk rest2, path := String.mk decoded,
                         query := String.mk query, forceQuery := forceQuery }
        else
          let omitHost := (scheme != "") && (rest.headD ' ' == '/')
          match percentDecode rest with
          | none => none
          | some decoded =>
              some { scheme := scheme, omitHost := omitHost,
                     rawPath := String.mk rest, path := String.mk decoded,
                     query := String.mk query, forceQuery := forceQuery }

/-- `url.Parse`: cut the fragment at the first `#`, parse the rest,
then validate and set the (non-empty) fragment. -/
def urlParse (rawURL : String) : Option URL :=
  let l := rawURL.toList
  let beforeFrag := l.takeWhile fun c => ¬ c = '#'
  let frag := (l.dropWhile fun c => ¬ c = '#').drop 1
  match parse beforeFrag with
  | none => none
  | some u =>
      if frag = [] then some u
      else
        match percentDecode frag with
        | none => none
        | some _ => some { u with fragment := String.mk frag }

/-- `URL.Hostname`: strip a valid `:port` suffix and IPv6 brackets
from the host. -/
def hostname (host : String) : String :=
  let l := host.toList
  let r := l.reverse
  let keep :=
    if (r.dropWhile fun c => ¬ c = ':') = [] then l
    else if validOptionalPort (':' :: (r.takeWhile fun c => ¬ c = ':').reverse) then
      ((r.dropWhile fun c => ¬ c = ':').drop 1).reverse
    else l
  match keep with
  | '[' :: rest =>
      if rest.getLast? = some ']' then String.mk rest.dropLast else String.mk keep
  | _ => String.mk keep

/-- `shouldEscape` for `encodePath`: only alphanumerics, `-_.~` and
the reserved characters other than `?` stay unescaped in a path. -/
def shouldEscapePath (c : Char) : Bool :=
  !(isAlpha c || isDigitChar c ||
    c == '-' || c == '_' || c == '.' || c == '~' ||
    c == '$' || c == '&' || c == '+' || c == ',' || c == '/' || c == ':' ||
    c == ';' || c == '=' || c == '@')

def hexUpper (n : Nat) : Char :=
  if n < 10 then Char.ofNat (48 + n) else Char.ofNat (55 + n)

/-- `escape(s, encodePath)`. -/
def escapePath (s : String) : String :=
  String.mk (s.toList.flatMap fun c =>
    if shouldEscapePath c then
      ['%', hexUpper (c.toNat / 16 % 16), hexUpper (c.toNat % 16)]
    else [c])

/-- `validEncoded(s, encodePath)`: every byte is one of
`! $ & ' ( ) * + , ; = : @ [ ] %` or needs no escaping. -/
def validEncodedPath (s : String) : Bool :=
  s.toList.all fun c =>
    c == '!' || c == '$' || c == '&' || c == Char.ofNat 39 || c == '(' ||
      c == ')' || c == '*' || c == '+' || c == ',' || c == ';' || c == '=' ||
      c == ':' || c == '@' || c == '[' || c == ']' || c == '%' ||
      !(shouldEscapePath c)

/-- `URL.EscapedPath`: the raw path when it is a valid encoding of
`path`, else `path` re-escaped. -/
def escapedPath (u : URL) : String :=
  if u.rawPath ≠ "" ∧ validEncodedPath u.rawPath = true ∧
      percentDecode u.rawPath.toList = some u.path.toList then
    u.rawPath
  else if u.path = "*" then "*"
  else escapePath u.path

/-- `shouldEscape` for `encodeHost` (hosts keep most sub-delims). -/
def shouldEscapeHost (c : Char) : Bool :=
  !(isAlpha c || isDigitChar c ||
    c == '-' || c == '_' || c == '.' || c == '~' ||
    c == '!' || c == '$' || c == '&' || c == Char.ofNat 39 || c == '(' ||
    c == ')' || c == '*' || c == '+' || c == ',' || c == ';' || c == '=' ||
    c == ':' || c == '[' || c == ']' || c == '<' || c == '>' || c == '"')

/-- `escape(s, encodeHost)`. -/
def escapeHost (s : String) : String :=
  String.mk (s.toList.flatMap fun c =>
    if shouldEscapeHost c then
      ['%', hexUpper (c.toNat / 16 % 16), hexUpper (c.toNat % 16)]
    else [c])

/-- `URL.String`: scheme, authority (unless an omitted empty host;
the host re-escaped, the stored userinfo as parsed), the escaped
path, query and fragment, with the `./` guard for a bare relative
path whose first segment contains a `:`. -/
def urlString (u : URL) : String :=
  let p := escapedPath u
  let auth :=
    if (u.scheme ≠ "" ∨ u.host ≠ "" ∨ u.user.isSome) ∧
        ¬ (u.omitHost = true ∧ u.host = "" ∧ u.user = none) then
      (if u.host ≠ "" ∨ u.path ≠ "" ∨ u.user.isSome then "//" else "") ++
        (match u.user with | some ui => ui ++ "@" | none => "") ++
        escapeHost u.host
    else ""
  let sep :=
    if p ≠ "" ∧ ¬ Filesystem.startsWithStr p "/" ∧ u.host ≠ "" then "/"
    else ""
  let dotSlash :=
    if u.scheme = "" ∧ auth = "" ∧
        ((p.toList.takeWhile fun c => ¬ c = '/').any fun c => c = ':') then
      "./"
    else ""
  (if u.scheme ≠ "" then u.scheme ++ ":" else "") ++
    (if u.opq ≠ "" then u.opq else auth ++ sep ++ dotSlash ++ p) ++
    (if u.forceQuery = true ∨ u.query ≠ "" then "?" ++ u.query else "") ++
    (if u.fragment ≠ "" then "#" ++ u.fragment else "")

/-- The dot-segment loop of `net/url.resolvePath`: `.` drops, `..`
pops, anything else (empty segments included) appends. -/
def resolvePathCore (dst : List String) : List String → List String
  | [] => dst
  | seg :: rest =>
      if seg = "." then resolvePathCore dst rest
      else if seg = ".." then resolvePathCore dst.dropLast rest
      else resolvePathCore (dst ++ [seg]) rest

/-- `net/url.resolvePath`: merge `ref` onto `base` (keeping `base` up
to and including its last `/` for a relative `ref`), remove dot
segments, and return an absolute path, with a trailing `/` when the
last merged segment was `.` or `..`. -/
def resolvePath (base ref : String) : String :=
  let full : List Char :=
    if ref = "" then base.toList
    else if ¬ Filesystem.startsWithStr ref "/" then
      (base.toList.reverse.dropWhile fun c => ¬ c = '/').reverse ++ ref.toList
    else ref.toList
  if full = [] then ""
  else
    let src := (Filesystem.splitOnChar '/' full).map String.mk
    let dst := resolvePathCore [] src
    let dst := if src.getLastD "" = "." ∨ src.getLastD "" = ".." then dst ++ [""]
               else dst
    let joined := Filesystem.joinComponents dst
    "/" ++ (if Filesystem.startsWithStr joined "/" then Filesystem.dropStr joined 1
            else joined)

/-- `URL.setPath` on an already-validated path: decode, keeping the
input when the (ignored) error fires. -/
def decodedOr (p : String) : String :=
  match percentDecode p.toList with
  | some d => String.mk d
  | none => p

/-- `URL.ResolveReference`: a reference with its own scheme, host or
userinfo keeps them (path cleaned); an opaque reference keeps its
opaque part; otherwise the reference resolves against the base's
authority and path, inheriting query and fragment when it has
neither path nor query of its own. -/
def resolveReference (u ref : URL) : URL :=
  let scheme := if ref.scheme = "" then u.scheme else ref.scheme
  if ref.scheme ≠ "" ∨ ref.host ≠ "" ∨ ref.user.isSome then
    let p := resolvePath (escapedPath ref) ""
    { ref with scheme := scheme, rawPath := p, path := decodedOr p }
  else if ref.opq ≠ "" then
    { ref with scheme := scheme, user := none, host := "", path := "" }
  else
    let inheritQ := ref.path = "" ∧ ref.forceQuery = false ∧ ref.query = ""
    let query := if inheritQ then u.query else ref.query
    let frag := if inheritQ ∧ ref.fragment = "" then u.fragment else ref.fragment
    let p := resolvePath (escapedPath u) ref.path
    { scheme := scheme, opq := "", user := u.user, host := u.host,
      omitHost := ref.omitHost, rawPath := p, path := decodedOr p,
      query := query, forceQuery := ref.forceQuery, fragment := frag }

/-- Value of a standard-alphabet base64 character. -/
def b64Val (c : Char) : Option Nat :=
  if isUpper c then some (c.toNat - 65)
  else if isLower c then some (c.toNat - 71)
  else if isDigitChar c then some (c.toNat + 4)
  else if c = '+' then some 62
  else if c = '/' then some 63
  else none

/-- Quad-at-a-time strict base64 decoding: the length must be a
multiple of 4, `=` padding may only close the final quad, and any
character outside the alphabet is an error. -/
def base64Quads : List Char → Option (List Char)
  | [] => some []
  | a :: b :: c :: d :: rest =>
      match b64Val a, b64Val b with
      | some va, some vb =>
          if c = '=' then
            if d = '=' ∧ rest = [] then some [Char.ofNat (va * 4 + vb / 16)]
            else none
          else
            match b64Val c with
            | some vc =>
                if d = '=' then
                  if rest = [] then
                    some [Char.ofNat (va * 4 + vb / 16),
                          Char.ofNat (vb % 16 * 16 + vc / 4)]
                  else none
                else
                  match b64Val d with
                  | some vd =>
                      (base64Quads rest).map fun r =>
                        Char.ofNat (va * 4 + vb / 16) ::
                          Char.ofNat (vb % 16 * 16 + vc / 4) ::
                          Char.ofNat (vc % 4 * 64 + vd) :: r
                  | none => none
            | none => none
      | _, _ => none
  | _ => none

/-- `base64.StdEncoding.DecodeString`: newline bytes are skipped, the
rest decodes strictly. -/
def base64Decode (s : String) : Option String :=
  (base64Quads (s.toList.filter fun c => !(c == '\r') && !(c == '\n'))).map
    String.mk

/-- Split at the first comma: `strings.SplitN(s, ",", 2)`, succeeding
exactly when a comma occurs. -/
def cutComma : List Char → Option (List Char × List Char)
  | [] => none
  | c :: rest =>
      if c = ',' then some ([], rest)
      else (cutComma rest).map fun p => (c :: p.1, p.2)

/-- `strings.Contains`. -/
def containsSub (sub : List Char) : List Char → Bool
  | [] => sub.isEmpty
  | c :: rest => sub.isPrefixOf (c :: rest) || containsSub sub rest

/-- `url.RemoveQueryString`: clear `RawQuery` and the fragment of the
parsed URL and re-serialize; a parse failure is an error (the callers
abort on it, so the error branch's `urlStr` payload is dropped). -/
def removeQueryString (urlStr : String) : Option String :=
  (urlParse urlStr).map fun u => urlString { u with query := "", fragment := "" }

/-- `url.ToAbsoluteURL`: an unparsable input or base is an error; an
absolute input (`IsAbs`: a nonempty scheme) re-serializes as-is;
anything else resolves against the base. -/
def toAbsoluteURL (baseStr inputStr : String) : Option String :=
  match urlParse inputStr with
  | none => none
  | some u =>
      if u.scheme ≠ "" then some (urlString u)
      else
        match urlParse baseStr with
        | none => none
        | some base => some (urlString (resolveReference base u))

/-- `url.DecodeDataURI`: split the whole URI at its first comma
(`strings.SplitN(dataURI, ",", 2)`); no comma is an error; when the
header part contains `;base64` the payload decodes strictly,
otherwise the raw payload is the content. -/
def decodeDataURI (dataURI : String) : Option String :=
  match cutComma dataURI.toList with
  | none => none
  | some (header, content) =>
      if containsSub ";base64".toList header then base64Decode (String.mk content)
      else some (String.mk content)

/-- `url.GetFileNameFromUrl`: parse (a failure is an error), split the
decoded `Path` on `/`, take the last segment (`strings.Split` never
yields an empty list, so that error branch is dead), default an empty
last segment to `index.html`, and truncate to 100. -/
def getFileNameFromUrl (rawUrl : String) : Option String :=
  match urlParse rawUrl with
  | none => none
  | some u =>
      let pathParts := Filesystem.splitOnChar '/' u.path.toList
      let fileName := String.mk (pathParts.getLastD [])
      let fileName := if fileName = "" then "index.html" else fileName
      some (String.mk (fileName.toList.take 100))

end Urls

namespace Filesystem

/-- `ExtractDomain`: an empty URL, a parse failure, or an empty
`Hostname()` is an error; otherwise the hostname cleaned by
`CleanPath`. -/
def extractDomain (rawURL : String) : Option String :=
  if rawURL = "" then none
  else
    match Urls.urlParse rawURL with
    | none => none
    | some u =>
        let domain := Urls.hostname u.host
        if domain = "" then none else some (cleanPath domain)

/-- `storage.SaveJSFile`: returns the content's SHA-256 hash, or `""`
when the domain or the filename cannot be extracted from the URL (the
file write and its skip-if-exists check do not affect the returned
hash). -/
def saveJSFile (url : String) (content : String) : String :=
  let contentHash := Hashing.generateSha256Hash content
  match extractDomain url with
  | none => ""
  | some _ =>
      match Urls.getFileNameFromUrl url with
      | none => ""
      | some _ => contentHash

/-- `storage.GetJSFilePath`: both `ExtractDomain` and
`GetFileNameFromUrl` must succeed; the path is
`<files>/<domain>/<hash>/<filename>`. -/
def getJSFilePath (url : String) (hash : String) : Option (List String) :=
  match extractDomain url with
  | none => none
  | some domain =>
      match Urls.getFileNameFromUrl url with
      | none => none
      | some filename => some [domain, hash, filename]

end Filesystem

/-! ## Sourcemap source-file paths

`saveSourceFile` (sourcemap worker) writes `sourcesContent[i]` under
`<files>/<domain>/<js_hash>/original/` at a location derived from the
sourcemap's `sources[i]` path: the path is sanitized by
`sanitizeSourcePath` when the sources are extracted, and the result is
cleaned again by `filesystem.CleanSourcePath` inside `saveSourceFile`,
whose output alone determines the final location.  We show the final
location can never escape the `original/` directory, for ANY source
path — in particular for paths with leading or embedded `..`
segments. -/

namespace SourcePaths

open Filesystem

/-- `strings.TrimLeft(s, "./")`: drop every leading dot or slash. -/
def trimLeftDotSlash (s : String) : String :=
  String.mk (s.toList.dropWhile fun c => c = '.' || c = '/')

/-- Go's `filepath.Clean` on a relative path (the argument always is
one here, since `trimLeftDotSlash` removed any leading slash): split
on `/`, drop empty and `.` segments, let `..` pop the previous
segment (leading `..` segments accumulate), `.` when nothing
remains. -/
def pathCleanStep (acc : List String) (seg : String) : List String :=
  if seg = "" ∨ seg = "." then acc
  else if seg = ".." then
    if acc ≠ [] ∧ acc.getLastD "" ≠ ".." then acc.dropLast else acc ++ [".."]
  else acc ++ [seg]

def pathClean (p : String) : String :=
  let segs := (splitOnChar '/' p.toList).map String.mk
  match segs.foldl pathCleanStep [] with
  | [] => "."
  | out => joinComponents out

/-- `sanitizeSourcePath` (sourcemap/extractor.go part): trim leading
`./` characters, then `filepath.Clean`.  (The Windows branch does not
run on this platform.)  Note that an embedded `..` after a normal
segment survives as a leading `..` of the cleaned relative path. -/
def sanitizeSourcePath (sourcePath : String) : String :=
  pathClean (trimLeftDotSlash sourcePath)

/-- A usable path component: non-empty, not a dot segment, and free
of separators. -/
def validComp (c : String) : Prop :=
  c ≠ "" ∧ c ≠ "." ∧ c ≠ ".." ∧ '/' ∉ c.toList

/-- `filepath.Base` + the filename fixups of `saveSourceFile`: an
empty or `.` base becomes `unknown.js`, and a base without an
extension gets `.js` appended. -/
def fixFilename (base : String) : String :=
  let f := if base = "" ∨ base = "." then "unknown.js" else base
  if f.toList.contains '.' then f else f ++ ".js"

/-- The path components, below the storage root, of the file
`saveSourceFile` writes: `domain / js_hash / original /` followed by
the directory part and fixed-up filename of
`CleanSourcePath(sourcePath)`. -/
def savedSourcePathComponents (domain jsHash sourcePath : String) : List String :=
  let comps :=
    if sourcePath = "" then ["unknown.js"]
    else
      match cleanSourceComponents sourcePath with
      | [] => ["unknown.js"]
      | cs => cs
  [domain, jsHash, "original"] ++ comps.dropLast ++ [fixFilename (comps.getLastD "")]

/-- Path resolution over components: `.` and empty segments vanish,
`..` pops the previous segment. -/
def resolveComponents (l : List String) : List String :=
  l.foldl (fun acc c =>
    if c = "" ∨ c = "." then acc
    else if c = ".." then acc.dropLast
    else acc ++ [c]) []

theorem mem_replaceInvalidChars_no_slash (l : List Char) :
    '/' ∉ replaceInvalidChars l := by
  intro hmem
  rw [replaceInvalidChars, List.mem_map] at hmem
  obtain ⟨c, _, hc⟩ := hmem
  by_cases hinv : isInvalidPathChar c
  · rw [if_pos hinv] at hc
    exact absurd hc (by decide)
  · rw [if_neg hinv] at hc
    rw [hc] at hinv
    exact hinv (by decide)

theorem mem_collapseDotsAux (b : Bool) (l : List Char) :
    ∀ c ∈ collapseDotsAux b l, c ∈ l ∨ c = '.' := by
  induction l generalizing b with
  | nil => intro c hc; rw [collapseDotsAux] at hc; exact absurd hc (List.not_mem_nil c)
  | cons x rest ih =>
      intro c hc
      rw [collapseDotsAux] at hc
      by_cases hx : x = '.'
      · rw [if_pos hx] at hc
        by_cases hb : b
        · rw [if_pos hb] at hc
          rcases ih true c hc with h | h
          · exact Or.inl (List.mem_cons_of_mem _ h)
          · exact Or.inr h
        · rw [if_neg hb] at hc
          rcases List.mem_cons.mp hc with h | h
          · exact Or.inr h
          · rcases ih true c h with h2 | h2
            · exact Or.inl (List.mem_cons_of_mem _ h2)
            · exact Or.inr h2
      · rw [if_neg hx] at hc
        rcases List.mem_cons.mp hc with h | h
        · exact Or.inl (h ▸ List.mem_cons_self x rest)
        · rcases ih false c h with h2 | h2
          · exact Or.inl (List.mem_cons_of_mem _ h2)
          · exact Or.inr h2

theorem mem_trimDotsSpaces (l : List Char) :
    ∀ c ∈ trimDotsSpaces l, c ∈ l := by
  intro c hc
  rw [trimDotsSpaces, List.mem_reverse] at hc
  have h1 := (List.dropWhile_sublist isDotOrSpace (l := (l.dropWhile isDotOrSpace).reverse)).mem hc
  rw [List.mem_reverse] at h1
  exact (List.dropWhile_sublist isDotOrSpace (l := l)).mem h1

theorem mem_replaceSpaces (l : List Char) :
    ∀ c ∈ replaceSpaces l, c ∈ l ∨ c = '_' := by
  intro c hc
  rw [replaceSpaces, List.mem_map] at hc
  obtain ⟨x, hx, hcx⟩ := hc
  by_cases hsp : x = ' '
  · rw [if_pos hsp] at hcx
    exact Or.inr hcx.symm
  · rw [if_neg hsp] at hcx
    exact Or.inl (hcx ▸ hx)

/-- No separator survives `CleanPathComponent`: slashes are replaced
by underscores and no later step introduces one. -/
theorem cleanPathComponent_no_slash (s : String) :
    '/' ∉ (cleanPathComponent s).toList := by
  intro hmem
  rw [cleanPathComponent] at hmem
  by_cases hs : s = ""
  · rw [if_pos hs] at hmem
    exact absurd hmem (by decide)
  · rw [if_neg hs] at hmem
    have h1 : '/' ∈ replaceSpaces (trimDotsSpaces (collapseDots
        (replaceInvalidChars s.toList))) :=
      (List.take_subset 50 _) hmem
    rcases mem_replaceSpaces _ _ h1 with h2 | h2
    · have h3 := mem_trimDotsSpaces _ _ h2
      rcases mem_collapseDotsAux false _ _ h3 with h4 | h4
      · exact mem_replaceInvalidChars_no_slash _ h4
      · exact absurd h4 (by decide)
    · exact absurd h2 (by decide)

/-- Every component `CleanSourcePath` keeps is valid: the filter
drops empty and dot components, and the cleaning step cannot produce
a slash. -/
theorem cleanSourceComponents_valid (path : String) :
    ∀ c ∈ cleanSourceComponents path, validComp c := by
  intro c hc
  rw [cleanSourceComponents, List.mem_filter] at hc
  obtain ⟨hmem, hcond⟩ := hc
  simp only [Bool.and_eq_true, bne_iff_ne, ne_eq, decide_eq_true_eq] at hcond
  rw [List.mem_map] at hmem
  obtain ⟨comp, _, hcc⟩ := hmem
  refine ⟨?_, ?_, ?_, hcc ▸ cleanPathComponent_no_slash _⟩
  · simpa using hcond.1.1
  · simpa using hcond.1.2
  · simpa using hcond.2

theorem fixFilename_valid (base : String) (h : '/' ∉ base.toList)
    (hnd : base ≠ "..") : validComp (fixFilename base) := by
  rw [fixFilename]
  by_cases hb : base = "" ∨ base = "."
  · rw [if_pos hb]
    by_cases hdot : ("unknown.js" : String).toList.contains '.'
    · rw [if_pos hdot]
      exact ⟨by decide, by decide, by decide, by decide⟩
    · exact absurd (by decide) hdot
  · rw [if_neg hb]
    push_neg at hb
    by_cases hdot : base.toList.contains '.'
    · rw [if_pos hdot]
      exact ⟨hb.1, hb.2, hnd, h⟩
    · rw [if_neg hdot]
      have hdata : (base ++ ".js").toList = base.toList ++ ['.', 'j', 's'] := by
        simp [String.toList, String.data_append]
      refine ⟨?_, ?_, ?_, ?_⟩
      · intro hcon
        have := congrArg (List.length ∘ String.toList) hcon
        simp [hdata] at this
      · intro hcon
        have := congrArg (List.length ∘ String.toList) hcon
        simp [hdata] at this
      · intro hcon
        have := congrArg (List.length ∘ String.toList) hcon
        simp [hdata] at this
      · intro hcon
        rw [hdata, List.mem_append] at hcon
        rcases hcon with hcon | hcon
        · exact h hcon
        · exact absurd hcon (by decide)

theorem getLastD_mem {l : List String} (h : l ≠ []) : l.getLastD "" ∈ l := by
  rw [List.getLastD_eq_getLast?, List.getLast?_eq_getLast l h, Option.getD_some]
  exact List.getLast_mem h

theorem resolveComponents_of_valid : ∀ (l : List String) (acc : List String),
    (∀ c ∈ l, validComp c) →
    l.foldl (fun acc c =>
      if c = "" ∨ c = "." then acc
      else if c = ".." then acc.dropLast
      else acc ++ [c]) acc = acc ++ l := by
  intro l
  induction l with
  | nil => intro acc _; simp
  | cons x rest ih =>
      intro acc hv
      have hx := hv x (List.mem_cons_self x rest)
      rw [List.foldl_cons, if_neg (by push_neg; exact ⟨hx.1, hx.2.1⟩), if_neg hx.2.2.1]
      rw [ih (acc ++ [x]) fun c hc => hv c (List.mem_cons_of_mem _ hc)]
      simp

/-- C7.  For every sourcemap source path — leading or embedded `..`
segments included — the file `saveSourceFile` writes for
`sourcesContent[i]` resolves to a location strictly below
`<domain>/<js_hash>/original/`: its resolved components extend
`[domain, js_hash, "original"]` by at least one valid component, so
the path never escapes that directory.  (The path reaching
`saveSourceFile` is `sanitizeSourcePath` of `sources[i]`; the theorem
quantifies over every string, so it covers that composition.) -/
theorem savedSourceFile_stays_under_original (domain jsHash : String)
    (hd : validComp domain) (hh : validComp jsHash) (sourcePath : String) :
    ∃ rest : List String, rest ≠ [] ∧ (∀ c ∈ rest, validComp c) ∧
      resolveComponents (savedSourcePathComponents domain jsHash sourcePath) =
        [domain, jsHash, "original"] ++ rest := by
  classical
  set comps :=
    if sourcePath = "" then ["unknown.js"]
    else
      match cleanSourceComponents sourcePath with
      | [] => ["unknown.js"]
      | cs => cs with hcomps
  have hcv : ∀ c ∈ comps, validComp c := by
    intro c hc
    rw [hcomps] at hc
    by_cases hsp : sourcePath = ""
    · rw [if_pos hsp] at hc
      rw [List.mem_singleton.mp hc]
      exact ⟨by decide, by decide, by decide, by decide⟩
    · rw [if_neg hsp] at hc
      cases hcs : cleanSourceComponents sourcePath with
      | nil =>
          rw [hcs] at hc
          rw [List.mem_singleton.mp hc]
          exact ⟨by decide, by decide, by decide, by decide⟩
      | cons y ys =>
          rw [hcs] at hc
          exact cleanSourceComponents_valid sourcePath c (by rw [hcs]; exact hc)
  have hne : comps ≠ [] := by
    rw [hcomps]
    by_cases hsp : sourcePath = ""
    · simp [hsp]
    · rw [if_neg hsp]
      cases hcs : cleanSourceComponents sourcePath <;> simp
  have hrestv : ∀ c ∈ comps.dropLast ++ [fixFilename (comps.getLastD "")],
      validComp c := by
    intro c hc
    rcases List.mem_append.mp hc with h | h
    · exact hcv c (List.dropLast_subset _ h)
    · rw [List.mem_singleton.mp h]
      have hlastv := hcv _ (getLastD_mem hne)
      exact fixFilename_valid _ hlastv.2.2.2 hlastv.2.2.1
  refine ⟨comps.dropLast ++ [fixFilename (comps.getLastD "")], by simp, hrestv, ?_⟩
  rw [savedSourcePathComponents, resolveComponents, ← hcomps, List.append_assoc]
  rw [resolveComponents_of_valid _ [] ?_]
  · rw [List.nil_append]
  · intro c hc
    rcases List.mem_append.mp hc with h | h
    · have hc3 : c = domain ∨ c = jsHash ∨ c = "original" := by simpa using h
      rcases hc3 with rfl | rfl | rfl
      exacts [hd, hh, ⟨by decide, by decide, by decide, by decide⟩]
    · exact hrestv c h

/-- Witness for `savedSourceFile_stays_under_original` on the
traversal attempt `../../../etc/passwd` of scenario S4: the write
lands at `x.test/h1/original/etc/passwd`, inside `original/`. -/
theorem savedSourceFile_stays_under_original_witness :
    validComp "x.test" ∧
      ∃ rest : List String, rest ≠ [] ∧ (∀ c ∈ rest, validComp c) ∧
        resolveComponents
            (savedSourcePathComponents "x.test" "h1" "../../../etc/passwd") =
          ["x.test", "h1", "original"] ++ rest :=
  ⟨⟨by decide, by decide, by decide, by decide⟩,
    savedSourceFile_stays_under_original "x.test" "h1"
      ⟨by decide, by decide, by decide, by decide⟩
      ⟨by decide, by decide, by decide, by decide⟩ "../../../etc/passwd"⟩

end SourcePaths

/-! ## The HTML structural hash

`GenerateHTMLHash` (internal/utils/html/html_comparator.go) parses the
HTML, removes `comment`-named elements, then `script`, `style` and
`meta` elements, drops every attribute except `href` and `src`,
flattens the document to its scrubbed text (the per-element loop sets
each element's first child to a text node of its concatenated text;
its first iteration hits the root element and detaches the rest of
the tree, so the rendered output is the root with that single text
node), collapses whitespace, and hex-encodes the SHA-256 of the
result.  We embed the pipeline over a tree model of the parsed
document (parsing itself is the `x/net/html` library). -/

namespace HtmlHash

open Hashing

theorem length_dropWhile_le {α : Type} (p : α → Bool) (l : List α) :
    (l.dropWhile p).length ≤ l.length := by
  induction l with
  | nil => simp
  | cons x xs ih =>
      rw [List.dropWhile_cons]
      split
      · exact Nat.le_trans ih (by simp)
      · exact Nat.le_refl _

/-- A node of the parsed HTML document. -/
inductive HtmlNode where
  | element (tag : String) (attrs : List (String × String)) (children : List HtmlNode)
  | text (s : String)
  | comment (s : String)
deriving Repr

/-- Does the node match one of the tag names of a `Find` selector?
(Only elements match; goquery selectors never match comment nodes.) -/
def matchesName (names : List String) : HtmlNode → Bool
  | .element t _ _ => names.contains t
  | _ => false

mutual

/-- `doc.Find(sel).Remove()` for a list of tag names: detach every
matching element (with its whole subtree). -/
def removeElemsNode (names : List String) : HtmlNode → HtmlNode
  | .element t a cs => .element t a (removeElemsList names cs)
  | n => n

def removeElemsList (names : List String) : List HtmlNode → List HtmlNode
  | [] => []
  | c :: rest =>
      if matchesName names c then removeElemsList names rest
      else removeElemsNode names c :: removeElemsList names rest

end

mutual

/-- The attribute pass: on every element keep only `href` and `src`
(in their original order), drop everything else. -/
def filterAttrsNode : HtmlNode → HtmlNode
  | .element t a cs =>
      .element t (a.filter fun kv => kv.fst == "href" || kv.fst == "src")
        (filterAttrsList cs)
  | n => n

def filterAttrsList : List HtmlNode → List HtmlNode
  | [] => []
  | c :: rest => filterAttrsNode c :: filterAttrsList rest

end

mutual

/-- `Selection.Text()`: the concatenated data of every descendant
text node. -/
def textContentNode : HtmlNode → String
  | .element _ _ cs => textContentList cs
  | .text s => s
  | .comment _ => ""

def textContentList : List HtmlNode → String
  | [] => ""
  | c :: rest => textContentNode c ++ textContentList rest

end

/-! ### The dynamic-text scrubbers

Three `ReplaceAllString(_, "")` passes delete UUIDs, ISO timestamps
and `nonce-<hex>` substrings from the flattened text. -/

def isHexLower (c : Char) : Bool :=
  c.isDigit || ('a' ≤ c && c ≤ 'f')

/-- Consume exactly `n` characters satisfying `p`. -/
def takeCount (p : Char → Bool) (n : Nat) (l : List Char) : Option (List Char) :=
  if (l.take n).length = n ∧ (l.take n).all p then some (l.drop n) else none

def expectChar (c : Char) : List Char → Option (List Char)
  | x :: rest => if x = c then some rest else none
  | [] => none

/-- An optional piece (regex `?`, greedy). -/
def optScan (f : List Char → Option (List Char)) (l : List Char) : List Char :=
  match f l with
  | some r => r
  | none => l

/-- Matcher for `[0-9a-f]{8}-[0-9a-f]{4}-[0-9a-f]{4}-[0-9a-f]{4}-[0-9a-f]{12}`
at the head of the list; returns the remainder on a match. -/
def uuidScan (l : List Char) : Option (List Char) :=
  takeCount isHexLower 8 l >>= expectChar '-' >>= takeCount isHexLower 4 >>=
    expectChar '-' >>= takeCount isHexLower 4 >>= expectChar '-' >>=
    takeCount isHexLower 4 >>= expectChar '-' >>= takeCount isHexLower 12

/-- Matcher for the timezone alternative `(Z|[+-]\d{2}:\d{2})`. -/
def tzScan (l : List Char) : Option (List Char) :=
  match expectChar 'Z' l with
  | some r => some r
  | none =>
      (match expectChar '+' l with
       | some r => some r
       | none => expectChar '-' l) >>=
        takeCount Char.isDigit 2 >>= expectChar ':' >>= takeCount Char.isDigit 2

/-- Matcher for `\d{4}-\d{2}-\d{2}T?\d{2}:\d{2}:\d{2}(Z|[+-]\d{2}:\d{2})?`. -/
def isoScan (l : List Char) : Option (List Char) :=
  (takeCount Char.isDigit 4 l >>= expectChar '-' >>= takeCount Char.isDigit 2 >>=
      expectChar '-' >>= takeCount Char.isDigit 2).map (optScan (expectChar 'T')) >>=
    takeCount Char.isDigit 2 >>= expectChar ':' >>= takeCount Char.isDigit 2 >>=
    expectChar ':' >>=
    (fun r => (takeCount Char.isDigit 2 r).map (optScan tzScan))

/-- Matcher for `nonce-[0-9a-f]+`. -/
def nonceScan (l : List Char) : Option (List Char) :=
  if ("nonce-".toList).isPrefixOf l then
    let rest := l.drop 6
    if rest.takeWhile isHexLower = [] then none
    else some (rest.dropWhile isHexLower)
  else none

/-- `ReplaceAllString(pattern, "")`: delete every (leftmost,
non-overlapping) match of the scanner. -/
def replaceAllEmpty (scan : List Char → Option (List Char)) (l : List Char) :
    List Char :=
  match l with
  | [] => []
  | c :: rest =>
      match scan (c :: rest) with
      | some remaining =>
          if h : remaining.length < (c :: rest).length then replaceAllEmpty scan remaining
          else c :: replaceAllEmpty scan rest
      | none => c :: replaceAllEmpty scan rest
termination_by l.length

/-- The three scrub passes, in source order: UUIDs, ISO dates,
nonces. -/
def scrubDynamicText (s : String) : String :=
  String.mk (replaceAllEmpty nonceScan (replaceAllEmpty isoScan
    (replaceAllEmpty uuidScan s.toList)))

/-! ### Rendering and hashing -/

/-- `html.EscapeString` on text and attribute values. -/
def htmlEscape (s : String) : String :=
  String.mk (s.toList.flatMap fun c =>
    if c = '&' then "&amp;".toList
    else if c = '\'' then "&#39;".toList
    else if c = '<' then "&lt;".toList
    else if c = '>' then "&gt;".toList
    else if c = '"' then "&#34;".toList
    else [c])

def renderAttrs (attrs : List (String × String)) : String :=
  attrs.foldl (fun acc kv => acc ++ " " ++ kv.fst ++ "=" ++ "\"" ++
    htmlEscape kv.snd ++ "\"") ""

/-- Rendering after the text-normalization loop: the root element
keeps its (filtered) attributes and carries one text child — its
scrubbed concatenated text; a degenerate element-less document
renders as itself. -/
def renderFlattened (root : HtmlNode) : String :=
  match root with
  | .element t a _ =>
      "<" ++ t ++ renderAttrs a ++ ">" ++
        htmlEscape (scrubDynamicText (textContentNode root)) ++ "</" ++ t ++ ">"
  | .text s => htmlEscape s
  | .comment s => "<!--" ++ s ++ "-->"

/-- `unicode.IsSpace` for the characters `strings.Fields` splits on. -/
def isGoSpace (c : Char) : Bool :=
  c == ' ' || c == '\t' || c == '\n' || c == '\x0b' || c == '\x0c' ||
    c == '\r' || c.toNat == 0x85 || c.toNat == 0xa0

/-- The whitespace-separated fields of a character list. -/
def fieldsWS (l : List Char) : List (List Char) :=
  match l with
  | [] => []
  | c :: rest =>
      if isGoSpace c then fieldsWS rest
      else (c :: rest.takeWhile fun x => !isGoSpace x) ::
        fieldsWS (rest.dropWhile fun x => !isGoSpace x)
termination_by l.length
decreasing_by
  · simp
  · have h1 := length_dropWhile_le (fun x => !isGoSpace x) rest
    simp only [List.length_cons]
    omega

/-- `strings.Join(strings.Fields(strings.TrimSpace(s)), " ")`. -/
def collapseWhitespace (s : String) : String :=
  String.intercalate " " ((fieldsWS s.toList).map String.mk)

/-- The tree-level normalization of `GenerateHTMLHash`: remove
`comment`-named elements, then `script`/`style`/`meta` elements, then
drop non-`href`/`src` attributes. -/
def normalizeTree (root : HtmlNode) : HtmlNode :=
  filterAttrsNode (removeElemsNode ["script", "style", "meta"]
    (removeElemsNode ["comment"] root))

/-- `GenerateHTMLHash` over the parsed tree: normalize, flatten to
scrubbed text, collapse whitespace, SHA-256, hex. -/
def generateHTMLHash (root : HtmlNode) : String :=
  generateSha256Hash (collapseWhitespace (renderFlattened (normalizeTree root)))

/-- The canonical form the claim's edits preserve: script subtrees
removed and non-`href`/`src` attributes dropped.  Removing or
reordering `<script>` nodes and adding, changing, or removing other
attributes leaves this form unchanged. -/
def scriptAttrNormal (root : HtmlNode) : HtmlNode :=
  filterAttrsNode (removeElemsNode ["script"] root)

theorem matchesName_filterAttrs (names : List String) (n : HtmlNode) :
    matchesName names (filterAttrsNode n) = matchesName names n := by
  cases n <;> rfl

theorem matchesName_removeElems (x y : List String) (n : HtmlNode) :
    matchesName x (removeElemsNode y n) = matchesName x n := by
  cases n <;> rfl

mutual

theorem removeElems_filterAttrs_node (names : List String) (n : HtmlNode) :
    removeElemsNode names (filterAttrsNode n) =
      filterAttrsNode (removeElemsNode names n) := by
  cases n with
  | element t a cs =>
      simp only [filterAttrsNode, removeElemsNode]
      exact congrArg _ (removeElems_filterAttrs_list names cs)
  | text s => rfl
  | comment s => rfl

theorem removeElems_filterAttrs_list (names : List String) (l : List HtmlNode) :
    removeElemsList names (filterAttrsList l) =
      filterAttrsList (removeElemsList names l) := by
  cases l with
  | nil => rfl
  | cons c rest =>
      have ihl := removeElems_filterAttrs_list names rest
      have ihn := removeElems_filterAttrs_node names c
      by_cases hm : matchesName names c <;>
        simp [removeElemsList, filterAttrsList, matchesName_filterAttrs, hm, ihl, ihn]

end

mutual

theorem removeElems_comm_node (x y : List String) (n : HtmlNode) :
    removeElemsNode x (removeElemsNode y n) =
      removeElemsNode y (removeElemsNode x n) := by
  cases n with
  | element t a cs =>
      simp only [removeElemsNode]
      exact congrArg _ (removeElems_comm_list x y cs)
  | text s => rfl
  | comment s => rfl

theorem removeElems_comm_list (x y : List String) (l : List HtmlNode) :
    removeElemsList x (removeElemsList y l) =
      removeElemsList y (removeElemsList x l) := by
  cases l with
  | nil => rfl
  | cons c rest =>
      have ihl := removeElems_comm_list x y rest
      have ihn := removeElems_comm_node x y c
      by_cases hy : matchesName y c <;> by_cases hx : matchesName x c <;>
        simp [removeElemsList, hy, hx, matchesName_removeElems, ihl, ihn]

end

mutual

theorem removeElems_absorb_node (x y : List String)
    (sub : ∀ n : HtmlNode, matchesName y n = true → matchesName x n = true)
    (n : HtmlNode) :
    removeElemsNode x (removeElemsNode y n) = removeElemsNode x n := by
  cases n with
  | element t a cs =>
      simp only [removeElemsNode]
      exact congrArg _ (removeElems_absorb_list x y sub cs)
  | text s => rfl
  | comment s => rfl

theorem removeElems_absorb_list (x y : List String)
    (sub : ∀ n : HtmlNode, matchesName y n = true → matchesName x n = true)
    (l : List HtmlNode) :
    removeElemsList x (removeElemsList y l) = removeElemsList x l := by
  cases l with
  | nil => rfl
  | cons c rest =>
      have ihl := removeElems_absorb_list x y sub rest
      have ihn := removeElems_absorb_node x y sub c
      by_cases hy : matchesName y c
      · have hx := sub c hy
        simp [removeElemsList, hy, hx, matchesName_removeElems, ihl]
      · by_cases hx : matchesName x c <;>
          simp [removeElemsList, hy, hx, matchesName_removeElems, ihl, ihn]

end

mutual

theorem filterAttrs_idem_node (n : HtmlNode) :
    filterAttrsNode (filterAttrsNode n) = filterAttrsNode n := by
  cases n with
  | element t a cs =>
      simp only [filterAttrsNode]
      refine congrArg₂ _ ?_ (filterAttrs_idem_list cs)
      rw [List.filter_filter]
      exact List.filter_congr fun kv _ => by cases h : kv.fst == "href" <;> simp [h]
  | text s => rfl
  | comment s => rfl

theorem filterAttrs_idem_list (l : List HtmlNode) :
    filterAttrsList (filterAttrsList l) = filterAttrsList l := by
  cases l with
  | nil => rfl
  | cons c rest =>
      have ihn := filterAttrs_idem_node c
      have ihl := filterAttrs_idem_list rest
      simp [filterAttrsList, ihn, ihl]

end

/-- The hash pipeline's normalization factors through the claim's
canonical form: scripts removed first and attributes dropped first
change nothing, because the pipeline removes scripts and drops those
attributes anyway. -/
theorem normalizeTree_scriptAttrNormal (t : HtmlNode) :
    normalizeTree (scriptAttrNormal t) = normalizeTree t := by
  rw [normalizeTree, scriptAttrNormal]
  rw [removeElems_filterAttrs_node, removeElems_filterAttrs_node]
  rw [filterAttrs_idem_node]
  rw [removeElems_comm_node ["comment"] ["script"]]
  rw [removeElems_absorb_node ["script", "style", "meta"] ["script"]
    (fun n h => by
      cases n with
      | element tag a cs =>
          have htag : tag = "script" := by simpa [matchesName] using h
          simp [matchesName, htag]
      | text s => exact absurd h (by simp [matchesName])
      | comment s => exact absurd h (by simp [matchesName]))]
  rw [normalizeTree]

/-- C8.  `GenerateHTMLHash` is deterministic (a function of its
input), and its digest is invariant under removing or reordering
`<script>` nodes and under adding, changing, or removing element
attributes other than `href` and `src`: any two documents that agree
after dropping script subtrees and non-`href`/`src` attributes hash
identically. -/
theorem generateHTMLHash_deterministic_invariant :
    (∀ t : HtmlNode, generateHTMLHash t = generateHTMLHash t) ∧
      ∀ t1 t2 : HtmlNode, scriptAttrNormal t1 = scriptAttrNormal t2 →
        generateHTMLHash t1 = generateHTMLHash t2 := by
  refine ⟨fun _ => rfl, ?_⟩
  intro t1 t2 h
  rw [generateHTMLHash, generateHTMLHash,
    ← normalizeTree_scriptAttrNormal t1, ← normalizeTree_scriptAttrNormal t2, h]

/-- A page with a script before the content and a styled paragraph. -/
def examplePage1 : HtmlNode :=
  .element "html" [] [
    .element "body" [] [
      .element "script" [] [.text "alert(1)"],
      .element "p" [("class", "x"), ("href", "/a")] [.text "hi"]]]

/-- The same page with the script removed and the paragraph's
non-`href` attribute changed. -/
def examplePage2 : HtmlNode :=
  .element "html" [] [
    .element "body" [] [
      .element "p" [("href", "/a"), ("id", "y")] [.text "hi"]]]

/-- Witness for `generateHTMLHash_deterministic_invariant`: the two
concrete pages above differ only in a script node and a non-`href`
attribute, and hash identically. -/
theorem generateHTMLHash_invariant_witness :
    generateHTMLHash examplePage1 = generateHTMLHash examplePage2 := by
  refine generateHTMLHash_deterministic_invariant.2 examplePage1 examplePage2 ?_
  simp [scriptAttrNormal, examplePage1, examplePage2, removeElemsNode,
    removeElemsList, matchesName, filterAttrsNode, filterAttrsList, List.filter]

end HtmlHash

/-! ## Record model

The two entity kinds that flow through the pipeline, with the fields
the claims touch.  Statuses are Go strings (`"pending"`,
`"processing"`, `"processed"`, `"failed"`, or `""` for a field never
set); `created_at` is a timestamp modelled as a `Nat`. -/

namespace Records

structure EndpointRec where
  id : String
  url : String
  extraction_status : String
  prettify_status : String
  created_at : Nat
deriving Repr, DecidableEq

structure JsFileRec where
  id : String
  url : String
  hash : String
  type : String
  parent_id : String
  has_chunks : Bool
  line_count : Nat
  prettify_status : String
  sourcemap_status : String
  analysis_status : String
  dechunker_status : String
  created_at : Nat
deriving Repr, DecidableEq

structure DB where
  endpoints : List EndpointRec
  jsFiles : List JsFileRec
deriving Repr

end Records

/-! ## JS-file registration (writers)

Two code paths insert `js_files` rows: the extraction stage's
`saveProcessingResults` (internal/workers/extraction/job.go), which
skips a captured resource when `checkExistingJSFile` finds a row with
the same url OR the same content hash, and the dechunker stage's
`fetchAndSaveChunks` (internal/workers/analysis/job.go part), which
skips a chunk URL only when a row with the same url exists. -/

namespace Writers

open Records Filesystem Hashing

/-- A captured JS resource handed to `saveProcessingResults`. -/
structure JSFileResult where
  url : String
  content : String
  type : String
deriving Repr

/-- `checkExistingJSFile`: id of the first `js_files` row whose url or
hash matches, or `none`. -/
def checkExistingJSFile (jsFiles : List JsFileRec) (url contentHash : String) :
    Option String :=
  (jsFiles.find? fun r => r.url == url || r.hash == contentHash).map (·.id)

/-- The row `saveProcessingResults` inserts for a new resource: url,
content hash, and type; the remaining fields take the store's zero
values until the after-create hook runs. -/
def mkExtractionRecord (id url contentHash type : String) : JsFileRec :=
  { id := id, url := url, hash := contentHash, type := type, parent_id := "",
    has_chunks := false, line_count := 0, prettify_status := "",
    sourcemap_status := "", analysis_status := "", dechunker_status := "",
    created_at := 0 }

/-- The per-resource loop of `saveProcessingResults`: reuse the id of
an existing row with the same url or hash, otherwise insert a fresh
row (`freshId k` names the k-th id the record store mints). -/
def saveProcessingLoop (freshId : Nat → String) (k : Nat)
    (jsFiles : List JsFileRec) (ids : List String) :
    List JSFileResult → List JsFileRec × List String
  | [] => (jsFiles, ids)
  | r :: rest =>
      let contentHash := generateSha256Hash r.content
      match checkExistingJSFile jsFiles r.url contentHash with
      | some existingID => saveProcessingLoop freshId k jsFiles (ids ++ [existingID]) rest
      | none =>
          let newRec := mkExtractionRecord (freshId k) r.url contentHash r.type
          saveProcessingLoop freshId (k + 1) (jsFiles ++ [newRec])
            (ids ++ [newRec.id]) rest

/-- `saveProcessingResults`, restricted to its js-file registration
loop: the updated `js_files` table and the id list stored on the
endpoint's `js_files` relation. -/
def saveProcessingResults (freshId : Nat → String) (jsFiles : List JsFileRec)
    (results : List JSFileResult) : List JsFileRec × List String :=
  saveProcessingLoop freshId 0 jsFiles [] results

/-- Result of one rate-limited chunk fetch: body, `Content-Type`, and
whether the request succeeded with HTTP 200 and no error. -/
structure FetchResult where
  content : String
  contentType : String
  ok : Bool
deriving Repr

/-- Does `sub` occur as a contiguous subsequence of `l`? -/
def containsSeq (sub : List Char) : List Char → Bool
  | [] => sub.isEmpty
  | c :: rest => sub.isPrefixOf (c :: rest) || containsSeq sub rest

/-- `strings.Contains`. -/
def containsStr (s sub : String) : Bool :=
  containsSeq sub.toList s.toList

/-- Go's `strings.TrimSpace` (ASCII whitespace). -/
def trimSpaceStr (s : String) : String :=
  let ws : Char → Bool := fun c =>
    c == ' ' || c == '\t' || c == '\n' || c == '\r' ||
      c == '\x0b' || c == '\x0c'
  String.mk ((s.toList.dropWhile ws).reverse.dropWhile ws).reverse

/-- The row `fetchAndSaveChunks` inserts for a fetched chunk:
`type = "chunk"`, `has_chunks = false`, `parent_id` = the id of the
js_file being dechunked, `hash` = what `SaveJSFile` returned. -/
def mkChunkRecord (id url contentHash parentID : String) (now : Nat) : JsFileRec :=
  { id := id, url := url, hash := contentHash, type := "chunk",
    parent_id := parentID, has_chunks := false, line_count := 0,
    prettify_status := "", sourcemap_status := "", analysis_status := "",
    dechunker_status := "", created_at := now }

/-- The guards of the chunk loop, in source order: skip when the fetch
failed, when the `Content-Type` contains neither `javascript` nor
`text/plain`, when the trimmed body looks like HTML, or when the body
is empty. -/
def chunkFetchAccepted (f : FetchResult) : Bool :=
  f.ok &&
    (containsStr f.contentType "javascript" || containsStr f.contentType "text/plain") &&
    !(startsWithStr (trimSpaceStr f.content) "<!DOCTYPE html>" ||
        startsWithStr (trimSpaceStr f.content) "<html>") &&
    !(f.content.length == 0)

/-- The per-URL loop of `fetchAndSaveChunks`: skip when a row with the
same url already exists (the only duplicate check on this path),
otherwise fetch, validate, save the body, and insert a `chunk` row
pointing at `parentJSFileID`. -/
def fetchAndSaveChunksLoop (freshId : Nat → String) (fetch : String → FetchResult)
    (parentJSFileID : String) (now : Nat) (k : Nat) (jsFiles : List JsFileRec) :
    List String → List JsFileRec
  | [] => jsFiles
  | url :: rest =>
      if (jsFiles.find? fun r => r.url == url).isSome then
        fetchAndSaveChunksLoop freshId fetch parentJSFileID now k jsFiles rest
      else
        let f := fetch url
        if chunkFetchAccepted f then
          let contentHash := saveJSFile url f.content
          let newRec := mkChunkRecord (freshId k) url contentHash parentJSFileID now
          fetchAndSaveChunksLoop freshId fetch parentJSFileID now (k + 1)
            (jsFiles ++ [newRec]) rest
        else
          fetchAndSaveChunksLoop freshId fetch parentJSFileID now k jsFiles rest

/-- `fetchAndSaveChunks`: the chunk registration loop, starting from
the current `js_files` table. -/
def fetchAndSaveChunks (freshId : Nat → String) (fetch : String → FetchResult)
    (jsFiles : List JsFileRec) (parentJSFileID : String) (chunkURLs : List String)
    (now : Nat) : List JsFileRec :=
  fetchAndSaveChunksLoop freshId fetch parentJSFileID now 0 jsFiles chunkURLs

/-- No two rows share a value of `key`. -/
def uniqueBy {α β : Type} (key : α → β) (l : List α) : Prop :=
  l.Pairwise fun a b => key a ≠ key b

theorem uniqueBy_append_singleton {α β : Type} (key : α → β) (l : List α) (x : α)
    (hl : uniqueBy key l) (hx : ∀ a ∈ l, key a ≠ key x) :
    uniqueBy key (l ++ [x]) := by
  rw [uniqueBy, List.pairwise_append]
  exact ⟨hl, List.pairwise_singleton _ _, fun a ha b hb => by
    rw [List.mem_singleton] at hb
    exact hb ▸ hx a ha⟩

theorem checkExistingJSFile_none {jsFiles : List JsFileRec} {url contentHash : String}
    (h : checkExistingJSFile jsFiles url contentHash = none) :
    ∀ r ∈ jsFiles, r.url ≠ url ∧ r.hash ≠ contentHash := by
  intro r hr
  rw [checkExistingJSFile] at h
  cases hf : jsFiles.find? (fun r => r.url == url || r.hash == contentHash) with
  | some v => rw [hf] at h; simp at h
  | none =>
      have := List.find?_eq_none.mp hf r hr
      simp only [Bool.or_eq_true, beq_iff_eq, not_or] at this
      exact this

theorem saveProcessingLoop_unique (freshId : Nat → String) :
    ∀ (results : List JSFileResult) (k : Nat) (jsFiles : List JsFileRec)
      (ids : List String),
      uniqueBy (·.url) jsFiles → uniqueBy (·.hash) jsFiles →
      uniqueBy (·.url) (saveProcessingLoop freshId k jsFiles ids results).1 ∧
        uniqueBy (·.hash) (saveProcessingLoop freshId k jsFiles ids results).1 := by
  intro results
  induction results with
  | nil => intro k jsFiles ids hu hh; exact ⟨hu, hh⟩
  | cons r rest ih =>
      intro k jsFiles ids hu hh
      rw [saveProcessingLoop]
      cases hchk : checkExistingJSFile jsFiles r.url (generateSha256Hash r.content) with
      | some existingID => exact ih k jsFiles (ids ++ [existingID]) hu hh
      | none =>
          have hnone := checkExistingJSFile_none hchk
          refine ih (k + 1) _ _ ?_ ?_
          · exact uniqueBy_append_singleton _ _ _ hu fun a ha => (hnone a ha).1
          · exact uniqueBy_append_singleton _ _ _ hh fun a ha => (hnone a ha).2

theorem fetchAndSaveChunksLoop_uniqueUrl (freshId : Nat → String)
    (fetch : String → FetchResult) (parentJSFileID : String) (now : Nat) :
    ∀ (chunkURLs : List String) (k : Nat) (jsFiles : List JsFileRec),
      uniqueBy (·.url) jsFiles →
      uniqueBy (·.url)
        (fetchAndSaveChunksLoop freshId fetch parentJSFileID now k jsFiles chunkURLs) := by
  intro chunkURLs
  induction chunkURLs with
  | nil => intro k jsFiles hu; exact hu
  | cons url rest ih =>
      intro k jsFiles hu
      rw [fetchAndSaveChunksLoop]
      by_cases hex : (jsFiles.find? fun r => r.url == url).isSome
      · simp only [hex, if_true]
        exact ih k jsFiles hu
      · simp only [hex, if_false]
        cases hacc : chunkFetchAccepted (fetch url) with
        | false => simp only [Bool.false_eq_true, if_false]; exact ih k jsFiles hu
        | true =>
            simp only [if_true]
            refine ih (k + 1) _ (uniqueBy_append_singleton _ _ _ hu ?_)
            intro a ha hEq
            refine hex ?_
            rw [List.find?_isSome]
            exact ⟨a, ha, by simp [mkChunkRecord] at hEq; simp [hEq]⟩

/-- C2, amended, part 1: the extraction writer suppresses duplicate
registration by url or hash — a resource whose url or content hash
matches an existing row reuses that row's id and inserts nothing —
so it preserves uniqueness of `js_files` by url and by hash. -/
theorem saveProcessingResults_dedup (freshId : Nat → String)
    (jsFiles : List JsFileRec) (results : List JSFileResult)
    (hu : uniqueBy (·.url) jsFiles) (hh : uniqueBy (·.hash) jsFiles) :
    (uniqueBy (·.url) (saveProcessingResults freshId jsFiles results).1 ∧
      uniqueBy (·.hash) (saveProcessingResults freshId jsFiles results).1) ∧
    ∀ r : JSFileResult, ∀ existingID : String,
      checkExistingJSFile jsFiles r.url (generateSha256Hash r.content) = some existingID →
      saveProcessingLoop freshId 0 jsFiles [] [r] = (jsFiles, [existingID]) := by
  refine ⟨saveProcessingLoop_unique freshId results 0 jsFiles [] hu hh, ?_⟩
  intro r existingID hchk
  rw [saveProcessingLoop, hchk]
  rfl

/-- C2, amended, part 2: the dechunker writer suppresses duplicates
only by url — a chunk URL that matches an existing row inserts
nothing, so url-uniqueness is preserved — while a chunk under a fresh
url is inserted regardless of its hash. -/
theorem fetchAndSaveChunks_dedup_by_url (freshId : Nat → String)
    (fetch : String → FetchResult) (jsFiles : List JsFileRec)
    (parentJSFileID : String) (chunkURLs : List String) (now : Nat)
    (hu : uniqueBy (·.url) jsFiles) :
    uniqueBy (·.url)
      (fetchAndSaveChunks freshId fetch jsFiles parentJSFileID chunkURLs now) ∧
    ∀ url : String, (jsFiles.find? fun r => r.url == url).isSome →
      fetchAndSaveChunks freshId fetch jsFiles parentJSFileID [url] now = jsFiles := by
  refine ⟨fetchAndSaveChunksLoop_uniqueUrl freshId fetch parentJSFileID now
    chunkURLs 0 jsFiles hu, ?_⟩
  intro url hex
  rw [fetchAndSaveChunks, fetchAndSaveChunksLoop, if_pos hex, fetchAndSaveChunksLoop]

/-- An id supply for the record store. -/
def mintId (k : Nat) : String := "rec" ++ toString k

/-- A `js_files` table holding one row whose hash is the SHA-256 of
the one-byte body `"x"`. -/
def dupHashTable : List JsFileRec :=
  [mkExtractionRecord "a1" "http://x.test/a.js" (generateSha256Hash "x") "normal"]

/-- A fetch oracle that returns the same JavaScript body `"x"` for
every URL. -/
def dupFetch : String → FetchResult := fun _ =>
  { content := "x", contentType := "application/javascript", ok := true }

/-- Counterexample to C2 as stated: the dechunker writer checks only
the url, so fetching a chunk under a fresh url whose body hash equals
an existing row's hash inserts a second row with that same hash —
`js_files` is no longer uniquely identifiable by hash. -/
theorem fetchAndSaveChunks_duplicate_hash :
    (fetchAndSaveChunks mintId dupFetch dupHashTable "a1" ["http://x.test/b.js"] 7).map
        (·.hash) =
      [generateSha256Hash "x", generateSha256Hash "x"] ∧
    ¬uniqueBy (·.hash)
      (fetchAndSaveChunks mintId dupFetch dupHashTable "a1" ["http://x.test/b.js"] 7) := by
  have hmap :
      (fetchAndSaveChunks mintId dupFetch dupHashTable "a1" ["http://x.test/b.js"] 7).map
          (·.hash) =
        [generateSha256Hash "x", generateSha256Hash "x"] := rfl
  refine ⟨hmap, ?_⟩
  intro hcontra
  have hm := List.pairwise_map.mpr hcontra
  rw [hmap] at hm
  rcases hm with _ | ⟨hne, _⟩
  exact hne _ (List.mem_singleton.mpr rfl) rfl

/-- Witness for `saveProcessingResults_dedup` at a concrete table:
registering a resource whose url and hash both match the existing row
reuses its id and inserts nothing. -/
theorem saveProcessingResults_dedup_witness :
    saveProcessingLoop mintId 0 dupHashTable []
        [{ url := "http://x.test/a.js", content := "x", type := "normal" }] =
      (dupHashTable, ["a1"]) := by
  have h := saveProcessingResults_dedup mintId dupHashTable
    [{ url := "http://x.test/a.js", content := "x", type := "normal" }]
    (List.pairwise_singleton ..) (List.pairwise_singleton ..)
  exact h.2 { url := "http://x.test/a.js", content := "x", type := "normal" } "a1"
    (by rw [checkExistingJSFile]; rfl)

/-- Witness for `fetchAndSaveChunks_dedup_by_url` at a concrete
table: a chunk URL equal to an existing row's url inserts nothing. -/
theorem fetchAndSaveChunks_dedup_by_url_witness :
    fetchAndSaveChunks mintId dupFetch dupHashTable "a1" ["http://x.test/a.js"] 7 =
      dupHashTable := by
  have h := fetchAndSaveChunks_dedup_by_url mintId dupFetch dupHashTable "a1"
    ["http://x.test/a.js"] 7 (List.pairwise_singleton ..)
  exact h.2 "http://x.test/a.js" (by decide)

end Writers

/-! ## The startup recovery sweep

`recoverPendingJobs` (db package) runs six queries, in a fixed order,
each of the form `FindRecordsByFilter(collection, "<field> = 'pending'
|| <field> = 'processing'", "created_at", 0, 0)`, and submits every
returned record to the pool owning that status field. -/

namespace Recovery

open Records

/-- Ascending order on a `created_at` key. -/
def createdLe {α : Type} (key : α → Nat) : α → α → Prop :=
  fun a b => key a ≤ key b

instance {α : Type} (key : α → Nat) : DecidableRel (createdLe key) :=
  fun a b => inferInstanceAs (Decidable (key a ≤ key b))

instance {α : Type} (key : α → Nat) : IsTotal α (createdLe key) :=
  ⟨fun a b => Nat.le_total (key a) (key b)⟩

instance {α : Type} (key : α → Nat) : IsTrans α (createdLe key) :=
  ⟨fun _ _ _ h1 h2 => Nat.le_trans h1 h2⟩

/-- The status filter `<field> = 'pending' || <field> = 'processing'`
used by all six recovery queries. -/
def pendingOrProcessing (s : String) : Bool :=
  s == "pending" || s == "processing"

/-- `FindRecordsByFilter(collection, filter, "created_at", 0, 0)`: the
matching records, ordered by `created_at` ascending, no limit. -/
def findRecordsByFilter {α : Type} (records : List α) (filter : α → Bool)
    (key : α → Nat) : List α :=
  List.insertionSort (createdLe key) (records.filter filter)

/-- The six submission batches of one recovery run, in sweep order. -/
structure RecoverySubmissions where
  extractionJobs : List EndpointRec
  endpointPrettifyJobs : List EndpointRec
  jsPrettifyJobs : List JsFileRec
  sourcemapJobs : List JsFileRec
  analysisJobs : List JsFileRec
  dechunkerJobs : List JsFileRec
deriving Repr

/-- `recoverPendingJobs`: the six sweeps, in source order —
endpoint extraction, endpoint prettify, js prettify, sourcemap,
analysis, dechunker — each re-submitting every record whose status
field is `pending` or `processing`, oldest first. -/
def recoverPendingJobs (db : DB) : RecoverySubmissions :=
  { extractionJobs :=
      findRecordsByFilter db.endpoints
        (fun r => pendingOrProcessing r.extraction_status) (·.created_at)
    endpointPrettifyJobs :=
      findRecordsByFilter db.endpoints
        (fun r => pendingOrProcessing r.prettify_status) (·.created_at)
    jsPrettifyJobs :=
      findRecordsByFilter db.jsFiles
        (fun r => pendingOrProcessing r.prettify_status) (·.created_at)
    sourcemapJobs :=
      findRecordsByFilter db.jsFiles
        (fun r => pendingOrProcessing r.sourcemap_status) (·.created_at)
    analysisJobs :=
      findRecordsByFilter db.jsFiles
        (fun r => pendingOrProcessing r.analysis_status) (·.created_at)
    dechunkerJobs :=
      findRecordsByFilter db.jsFiles
        (fun r => pendingOrProcessing r.dechunker_status) (·.created_at) }

/-- What one sweep must deliver for a status field: exactly the
records whose field reads `pending` or `processing`, ordered by
`created_at` ascending; in particular nothing `failed` or
`processed`. -/
def sweepSpec {α : Type} (submitted : List α) (records : List α)
    (status : α → String) (key : α → Nat) : Prop :=
  (∀ r, r ∈ submitted ↔
      r ∈ records ∧ (status r = "pending" ∨ status r = "processing")) ∧
    List.Sorted (createdLe key) submitted ∧
    ∀ r ∈ submitted, status r ≠ "failed" ∧ status r ≠ "processed"

theorem sweepSpec_findRecordsByFilter {α : Type} (records : List α)
    (status : α → String) (key : α → Nat) :
    sweepSpec (findRecordsByFilter records (fun r => pendingOrProcessing (status r)) key)
      records status key := by
  have hmem : ∀ r, r ∈ findRecordsByFilter records
      (fun r => pendingOrProcessing (status r)) key ↔
      r ∈ records ∧ (status r = "pending" ∨ status r = "processing") := by
    intro r
    rw [findRecordsByFilter,
      (List.perm_insertionSort (createdLe key) _).mem_iff, List.mem_filter]
    simp [pendingOrProcessing]
  refine ⟨hmem, List.sorted_insertionSort _ _, ?_⟩
  intro r hr
  rcases ((hmem r).mp hr).2 with h | h <;> rw [h] <;> exact ⟨by decide, by decide⟩

/-- C1.  The recovery sweep submits, for each of the six
(entity, status-field) pairs, exactly the records whose field is
`pending` or `processing`, ordered by `created_at` ascending; records
whose field is `failed` or `processed` are never re-submitted. -/
theorem recoverPendingJobs_spec (db : DB) :
    sweepSpec (recoverPendingJobs db).extractionJobs db.endpoints
      (·.extraction_status) (·.created_at) ∧
    sweepSpec (recoverPendingJobs db).endpointPrettifyJobs db.endpoints
      (·.prettify_status) (·.created_at) ∧
    sweepSpec (recoverPendingJobs db).jsPrettifyJobs db.jsFiles
      (·.prettify_status) (·.created_at) ∧
    sweepSpec (recoverPendingJobs db).sourcemapJobs db.jsFiles
      (·.sourcemap_status) (·.created_at) ∧
    sweepSpec (recoverPendingJobs db).analysisJobs db.jsFiles
      (·.analysis_status) (·.created_at) ∧
    sweepSpec (recoverPendingJobs db).dechunkerJobs db.jsFiles
      (·.dechunker_status) (·.created_at) :=
  ⟨sweepSpec_findRecordsByFilter _ _ _, sweepSpec_findRecordsByFilter _ _ _,
    sweepSpec_findRecordsByFilter _ _ _, sweepSpec_findRecordsByFilter _ _ _,
    sweepSpec_findRecordsByFilter _ _ _, sweepSpec_findRecordsByFilter _ _ _⟩

/-- An endpoint left `processing` by a crash. -/
def crashedEndpoint : EndpointRec :=
  { id := "e1", url := "http://a.test/", extraction_status := "processing",
    prettify_status := "pending", created_at := 5 }

/-- An endpoint whose extraction already failed (terminal). -/
def failedEndpoint : EndpointRec :=
  { id := "e2", url := "http://b.test/", extraction_status := "failed",
    prettify_status := "processed", created_at := 3 }

/-- A two-record database: one endpoint left `processing` by a crash,
one already `failed`. -/
def exampleDB : DB :=
  { endpoints := [crashedEndpoint, failedEndpoint], jsFiles := [] }

/-- Witness for `recoverPendingJobs_spec` on `exampleDB`: the crashed
`processing` endpoint is swept into the extraction batch, and the
`failed` one is not. -/
theorem recoverPendingJobs_spec_witness :
    crashedEndpoint ∈ (recoverPendingJobs exampleDB).extractionJobs ∧
      failedEndpoint ∉ (recoverPendingJobs exampleDB).extractionJobs := by
  have h := (recoverPendingJobs_spec exampleDB).1.1
  constructor
  · exact (h _).mpr ⟨by decide, by decide⟩
  · intro hmem
    rcases ((h _).mp hmem).2 with hc | hc <;> revert hc <;> decide

end Recovery

/-! ## The js_files hook layer as a per-record transition system

`RegisterHooks` (internal/db/hooks.go) wires the after-create and
after-update hooks of `js_files`.  For one record we model every
event that can touch it — hook firings, worker completions, recovery
sweeps — as a step relation on the pair (record, dechunker-submitted
flag) and show that a record created with type `inline` or `chunk`
keeps `dechunker_status = processed` (or the zero value, when the
create hook aborted early) and is never submitted to the dechunker
pool. -/

namespace Hooks

open Records

/-- A submission the hook layer or the recovery sweep can emit for a
js_file. -/
inductive Submission where
  | prettifyJs (recordId : String) : Submission
  | sourcemap (recordId : String) : Submission
  | analysis (recordId : String) : Submission
  | dechunker (recordId : String) : Submission
deriving Repr, DecidableEq

/-- Does a submission batch contain a dechunker job? -/
def hasDechunkerSub (subs : List Submission) : Bool :=
  subs.any fun s =>
    match s with
    | .dechunker _ => true
    | _ => false

/-- The `js_files` after-create hook: set the four statuses to
`pending`, force `dechunker_status = processed` for `inline`/`chunk`
types, set `created_at`, resolve the storage path — aborting, without
saving the in-memory changes, when that fails — then flip prettify
and sourcemap to `processing`, save, and submit those two jobs.  The
function gives the saved record (the in-memory `Set` sequence
collapsed to its net effect, since the record is saved once). -/
def afterCreateJsFile (now : Nat) (r : JsFileRec) : JsFileRec × List Submission :=
  match Filesystem.getJSFilePath r.url r.hash with
  | none => (r, [])
  | some _ =>
      ({ r with prettify_status := "processing", analysis_status := "pending",
                sourcemap_status := "processing",
                dechunker_status :=
                  if r.type = "inline" ∨ r.type = "chunk" then "processed"
                  else "pending",
                created_at := now },
       [.prettifyJs r.id, .sourcemap r.id])

/-- The `js_files` after-update hook: when prettify has landed, flip
a `pending` analysis to `processing` and submit analysis, and flip a
`pending` dechunker to `processing` and submit dechunker (the two
independent `if`s of the source, expanded into cases). -/
def afterUpdateJsFile (r : JsFileRec) : JsFileRec × List Submission :=
  if r.prettify_status = "processed" then
    if r.analysis_status = "pending" then
      if r.dechunker_status = "pending" then
        ({ r with analysis_status := "processing", dechunker_status := "processing" },
         [.analysis r.id, .dechunker r.id])
      else ({ r with analysis_status := "processing" }, [.analysis r.id])
    else
      if r.dechunker_status = "pending" then
        ({ r with dechunker_status := "processing" }, [.dechunker r.id])
      else (r, [])
  else (r, [])

/-- What the recovery sweep submits for this one record: one job per
status field still `pending` or `processing`. -/
def recoverySubmissionsFor (r : JsFileRec) : List Submission :=
  (if Recovery.pendingOrProcessing r.prettify_status then [Submission.prettifyJs r.id]
   else []) ++
  (if Recovery.pendingOrProcessing r.sourcemap_status then [Submission.sourcemap r.id]
   else []) ++
  (if Recovery.pendingOrProcessing r.analysis_status then [Submission.analysis r.id]
   else []) ++
  (if Recovery.pendingOrProcessing r.dechunker_status then [Submission.dechunker r.id]
   else [])

/-- The prettify worker's final record write. -/
def prettifyWorkerDone (r : JsFileRec) (ok : Bool) (lines : Nat) : JsFileRec :=
  if ok then { r with line_count := lines, prettify_status := "processed" }
  else { r with prettify_status := "failed" }

/-- The sourcemap worker's final record write. -/
def sourcemapWorkerDone (r : JsFileRec) (ok : Bool) : JsFileRec :=
  if ok then { r with sourcemap_status := "processed" }
  else { r with sourcemap_status := "failed" }

/-- The analysis worker's final record write. -/
def analysisWorkerDone (r : JsFileRec) (ok : Bool) : JsFileRec :=
  if ok then { r with analysis_status := "processed" }
  else { r with analysis_status := "failed" }

/-- The dechunker worker's final record write; it only runs on
records submitted to the dechunker pool. -/
def dechunkerWorkerDone (r : JsFileRec) (ok foundChunks : Bool) : JsFileRec :=
  if ok then { r with dechunker_status := "processed", has_chunks := foundChunks }
  else { r with dechunker_status := "failed" }

/-- One event touching the record after its creation.  The second
component of the state records whether a dechunker job for this
record was ever submitted; the dechunker worker can only run when it
was. -/
inductive Step : JsFileRec × Bool → JsFileRec × Bool → Prop where
  | update (r : JsFileRec) (d : Bool) :
      Step (r, d) ((afterUpdateJsFile r).1, d || hasDechunkerSub (afterUpdateJsFile r).2)
  | recovery (r : JsFileRec) (d : Bool) :
      Step (r, d) (r, d || hasDechunkerSub (recoverySubmissionsFor r))
  | prettifyDone (r : JsFileRec) (d : Bool) (ok : Bool) (lines : Nat) :
      Step (r, d) (prettifyWorkerDone r ok lines, d)
  | sourcemapDone (r : JsFileRec) (d : Bool) (ok : Bool) :
      Step (r, d) (sourcemapWorkerDone r ok, d)
  | analysisDone (r : JsFileRec) (d : Bool) (ok : Bool) :
      Step (r, d) (analysisWorkerDone r ok, d)
  | dechunkerDone (r : JsFileRec) (ok foundChunks : Bool) :
      Step (r, true) (dechunkerWorkerDone r ok foundChunks, true)

/-- States reachable for a record created as `r0` (through the
after-create hook) under any interleaving of later events. -/
inductive Reachable (r0 : JsFileRec) (now : Nat) : JsFileRec × Bool → Prop where
  | init :
      Reachable r0 now
        ((afterCreateJsFile now r0).1, hasDechunkerSub (afterCreateJsFile now r0).2)
  | step {s s' : JsFileRec × Bool} :
      Reachable r0 now s → Step s s' → Reachable r0 now s'

theorem afterUpdateJsFile_no_dechunker (r : JsFileRec)
    (hnp : r.dechunker_status ≠ "pending") :
    (afterUpdateJsFile r).1.type = r.type ∧
      (afterUpdateJsFile r).1.dechunker_status = r.dechunker_status ∧
      hasDechunkerSub (afterUpdateJsFile r).2 = false := by
  rw [afterUpdateJsFile]
  by_cases h1 : r.prettify_status = "processed"
  · rw [if_pos h1]
    by_cases h2 : r.analysis_status = "pending"
    · rw [if_pos h2, if_neg hnp]
      exact ⟨rfl, rfl, rfl⟩
    · rw [if_neg h2, if_neg hnp]
      exact ⟨rfl, rfl, rfl⟩
  · rw [if_neg h1]
    exact ⟨rfl, rfl, rfl⟩

theorem recoverySubmissionsFor_no_dechunker (r : JsFileRec)
    (hnp : Recovery.pendingOrProcessing r.dechunker_status = false) :
    hasDechunkerSub (recoverySubmissionsFor r) = false := by
  rw [recoverySubmissionsFor, hnp]
  simp only [Bool.false_eq_true, if_false, List.append_nil, hasDechunkerSub,
    List.any_append, Bool.or_eq_false_iff]
  refine ⟨⟨?_, ?_⟩, ?_⟩ <;> split <;> rfl

theorem reachable_inline_chunk_inv (r0 : JsFileRec) (now : Nat)
    (htype : r0.type = "inline" ∨ r0.type = "chunk")
    (hzero : r0.dechunker_status = "") :
    ∀ s, Reachable r0 now s →
      s.1.type = r0.type ∧
        (s.1.dechunker_status = "processed" ∨ s.1.dechunker_status = "") ∧
        s.2 = false := by
  intro s h
  induction h with
  | init =>
      cases hpath : Filesystem.getJSFilePath r0.url r0.hash with
      | none =>
          simp [afterCreateJsFile, hpath, hzero, hasDechunkerSub]
      | some p =>
          simp [afterCreateJsFile, hpath, if_pos htype, hasDechunkerSub]
  | step hreach hstep ih =>
      obtain ⟨iht, ihs, ihd⟩ := ih
      cases hstep with
      | update r d =>
          have ihs2 : r.dechunker_status = "processed" ∨ r.dechunker_status = "" := ihs
          have hnp : r.dechunker_status ≠ "pending" := by
            rcases ihs2 with h1 | h1 <;> simp [h1]
          obtain ⟨h1, h2, h3⟩ := afterUpdateJsFile_no_dechunker r hnp
          have hd : d = false := ihd
          refine ⟨h1.trans iht, ?_, ?_⟩
          · rw [show ((afterUpdateJsFile r).1,
              d || hasDechunkerSub (afterUpdateJsFile r).2).1 =
                (afterUpdateJsFile r).1 from rfl, h2]
            exact ihs
          · simp [hd, h3]
      | recovery r d =>
          have ihs2 : r.dechunker_status = "processed" ∨ r.dechunker_status = "" := ihs
          have hnp : Recovery.pendingOrProcessing r.dechunker_status = false := by
            rcases ihs2 with h1 | h1 <;> simp [Recovery.pendingOrProcessing, h1]
          have hd : d = false := ihd
          refine ⟨iht, ihs, ?_⟩
          simp [hd, recoverySubmissionsFor_no_dechunker r hnp]
      | prettifyDone r d ok lines =>
          refine ⟨?_, ?_, ihd⟩ <;> rw [prettifyWorkerDone] <;> split <;> simpa
      | sourcemapDone r d ok =>
          refine ⟨?_, ?_, ihd⟩ <;> rw [sourcemapWorkerDone] <;> split <;> simpa
      | analysisDone r d ok =>
          refine ⟨?_, ?_, ihd⟩ <;> rw [analysisWorkerDone] <;> split <;> simpa
      | dechunkerDone r ok foundChunks =>
          exact absurd ihd (by simp)

/-- C3.  A js_file created with type `inline` or `chunk` gets
`dechunker_status = processed` from the create hook whenever the hook
completes (its storage path resolves: `url.Parse` accepts the URL and
it has a hostname — the chunk fetch itself already needs a parseable
URL for `http.NewRequest`), the create hook never submits a
dechunker job for it, no reachable state of the record is ever
`pending`/`processing` for dechunking or submitted to the dechunker
pool; and every js_file the dechunker stage itself creates has
`type = "chunk"`, `has_chunks = false`, and `parent_id` equal to the
id of the record whose processing produced the chunk URL. -/
theorem inline_chunk_skip_dechunker (r0 : JsFileRec) (now : Nat)
    (htype : r0.type = "inline" ∨ r0.type = "chunk")
    (hzero : r0.dechunker_status = "") :
    ((Filesystem.getJSFilePath r0.url r0.hash).isSome →
        (afterCreateJsFile now r0).1.dechunker_status = "processed") ∧
      hasDechunkerSub (afterCreateJsFile now r0).2 = false ∧
      (∀ s, Reachable r0 now s →
        s.2 = false ∧ s.1.dechunker_status ≠ "pending" ∧
          s.1.dechunker_status ≠ "processing") ∧
      ∀ (freshId : Nat → String) (fetch : String → Writers.FetchResult)
        (jsFiles : List JsFileRec) (parentID : String) (chunkURLs : List String)
        (nowF : Nat),
        ∀ r ∈ Writers.fetchAndSaveChunks freshId fetch jsFiles parentID chunkURLs nowF,
          r ∈ jsFiles ∨
            (r.type = "chunk" ∧ r.has_chunks = false ∧ r.parent_id = parentID) := by
  have hinv := reachable_inline_chunk_inv r0 now htype hzero
  refine ⟨?_, ?_, ?_, ?_⟩
  · intro hpath
    cases hp : Filesystem.getJSFilePath r0.url r0.hash with
    | none => rw [hp] at hpath; exact absurd hpath (by simp)
    | some p => simp only [afterCreateJsFile, hp, if_pos htype]
  · cases hp : Filesystem.getJSFilePath r0.url r0.hash with
    | none => simp only [afterCreateJsFile, hp]; rfl
    | some p => simp only [afterCreateJsFile, hp]; rfl
  · intro s hs
    obtain ⟨_, hstat, hd⟩ := hinv s hs
    refine ⟨hd, ?_, ?_⟩ <;> rcases hstat with h1 | h1 <;> simp [h1]
  · intro freshId fetch jsFiles parentID chunkURLs nowF
    have : ∀ (urls : List String) (k : Nat) (db : List JsFileRec),
        (∀ r ∈ db, r ∈ jsFiles ∨
          (r.type = "chunk" ∧ r.has_chunks = false ∧ r.parent_id = parentID)) →
        ∀ r ∈ Writers.fetchAndSaveChunksLoop freshId fetch parentID nowF k db urls,
          r ∈ jsFiles ∨
            (r.type = "chunk" ∧ r.has_chunks = false ∧ r.parent_id = parentID) := by
      intro urls
      induction urls with
      | nil => intro k db hdb r hr; exact hdb r hr
      | cons url rest ih =>
          intro k db hdb r hr
          rw [Writers.fetchAndSaveChunksLoop] at hr
          by_cases hex : (db.find? fun rec => rec.url == url).isSome
          · rw [if_pos hex] at hr
            exact ih k db hdb r hr
          · rw [if_neg hex] at hr
            by_cases hacc : Writers.chunkFetchAccepted (fetch url)
            · rw [if_pos hacc] at hr
              refine ih (k + 1) _ ?_ r hr
              intro q hq
              rcases List.mem_append.mp hq with h1 | h1
              · exact hdb q h1
              · rw [List.mem_singleton.mp h1]
                exact Or.inr ⟨rfl, rfl, rfl⟩
            · rw [if_neg hacc] at hr
              exact ih k db hdb r hr
    exact this chunkURLs 0 jsFiles (fun r hr => Or.inl hr)

/-- A chunk row exactly as `fetchAndSaveChunks` mints it. -/
def exampleChunkRecord : JsFileRec :=
  Writers.mkChunkRecord "c1" "http://x.test/chunk1.js"
    (Hashing.generateSha256Hash "console.log(2)") "a1" 7

/-- Witness for `inline_chunk_skip_dechunker` on a concrete chunk
record: the create hook resolves its path and leaves
`dechunker_status = processed`, submitting no dechunker job. -/
theorem inline_chunk_skip_dechunker_witness :
    (afterCreateJsFile 9 exampleChunkRecord).1.dechunker_status = "processed" ∧
      hasDechunkerSub (afterCreateJsFile 9 exampleChunkRecord).2 = false := by
  have h := inline_chunk_skip_dechunker exampleChunkRecord 9 (Or.inr rfl) rfl
  exact ⟨h.1 (by decide), h.2.1⟩

end Hooks

/-! ## The sourcemap pipeline

`ProcessSourceMap` (sourcemap extractor) finds the last
`sourceMappingURL` comment, obtains the map bytes (data URI decode, or
fetch of the resolved URL, falling back to `<js_url_without_query>.map`),
and extracts `sources` / `sourcesContent`.  Fetched bytes pass
`isValidSourceMapContent` (JSON with a numeric `version ≥ 1` and a
`sources` array) inside `fetchSourceMapContent`; bytes decoded from a
`data:` URI are returned without that validation.  `processJob`
(internal/workers/sourcemap/job.go) maps every outcome that produced
no sourcemap to `sourcemap_status = processed` with nothing written.

JSON decoding is embedded as an executable parser over the content
string; numbers are stored by their floor (the only numeric use is
the `version ≥ 1` comparison, which the floor preserves). -/

namespace Sourcemap

open Records

def isJsonWs (c : Char) : Bool :=
  c == ' ' || c == '\t' || c == '\n' || c == '\r'

def skipWs (l : List Char) : List Char :=
  l.dropWhile isJsonWs

/-- Floor of `±digits.frac × 10^e` (how `json.Unmarshal` numbers are
kept in the `Json.num` model). -/
def floorOfParts (neg : Bool) (digits : Nat) (fracLen : Nat) (e : Int) : Int :=
  let shift : Int := e - fracLen
  if 0 ≤ shift then
    let v : Int := (digits : Int) * ((10 : Int) ^ shift.toNat)
    if neg then -v else v
  else
    let d : Nat := 10 ^ (-shift).toNat
    if neg then -(((digits + d - 1) / d : Nat) : Int) else ((digits / d : Nat) : Int)

def digitVal (c : Char) : Nat := c.toNat - 48

def hexVal (c : Char) : Nat :=
  if c.isDigit then c.toNat - 48
  else if 'a' ≤ c && c ≤ 'f' then c.toNat - 87
  else if 'A' ≤ c && c ≤ 'F' then c.toNat - 55
  else 0

/-- Parse the body of a JSON string after the opening quote. -/
def parseStringBody : List Char → Option (List Char × List Char)
  | [] => none
  | '"' :: rest => some ([], rest)
  | '\\' :: 'u' :: a :: b :: c :: d :: rest =>
      (parseStringBody rest).map fun p =>
        (Char.ofNat (((hexVal a * 16 + hexVal b) * 16 + hexVal c) * 16 + hexVal d) ::
          p.1, p.2)
  | '\\' :: e :: rest =>
      let c := if e = 'n' then '\n' else if e = 't' then '\t'
        else if e = 'r' then '\r' else if e = 'b' then '\x08'
        else if e = 'f' then '\x0c' else e
      (parseStringBody rest).map fun p => (c :: p.1, p.2)
  | c :: rest => (parseStringBody rest).map fun p => (c :: p.1, p.2)

/-- Parse the digits/fraction/exponent of a JSON number after an
optional minus sign. -/
def parseNumberBody (neg : Bool) (l : List Char) : Option (Json × List Char) :=
  let ds := l.takeWhile Char.isDigit
  if ds = [] then none
  else
    let digits := ds.foldl (fun a c => a * 10 + digitVal c) 0
    let r1 := l.dropWhile Char.isDigit
    let (digits, fracLen, r2) :=
      match r1 with
      | '.' :: rest =>
          let fs := rest.takeWhile Char.isDigit
          (fs.foldl (fun a c => a * 10 + digitVal c) digits, fs.length,
            rest.dropWhile Char.isDigit)
      | _ => (digits, 0, r1)
    let (e, r3) :=
      match r2 with
      | 'e' :: rest | 'E' :: rest =>
          let (esign, rest2) :=
            match rest with
            | '-' :: t => ((-1 : Int), t)
            | '+' :: t => ((1 : Int), t)
            | t => ((1 : Int), t)
          let es := rest2.takeWhile Char.isDigit
          (esign * (es.foldl (fun a c => a * 10 + digitVal c) 0 : Nat),
            rest2.dropWhile Char.isDigit)
      | _ => ((0 : Int), r2)
    some (.num (floorOfParts neg digits fracLen e), r3)

mutual

/-- Fuel-indexed JSON value parser. -/
def parseValue : Nat → List Char → Option (Json × List Char)
  | 0, _ => none
  | fuel + 1, l =>
      match skipWs l with
      | [] => none
      | c :: rest =>
          if c = 'n' then
            if "ull".toList.isPrefixOf rest then some (.null, rest.drop 3) else none
          else if c = 't' then
            if "rue".toList.isPrefixOf rest then some (.bool true, rest.drop 3)
            else none
          else if c = 'f' then
            if "alse".toList.isPrefixOf rest then some (.bool false, rest.drop 4)
            else none
          else if c = '"' then
            (parseStringBody rest).map fun p => (.str (String.mk p.1), p.2)
          else if c = '[' then
            match skipWs rest with
            | ']' :: r2 => some (.arr [], r2)
            | r2 => (parseElems fuel r2).map fun p => (.arr p.1, p.2)
          else if c = '\x7b' then
            match skipWs rest with
            | '\x7d' :: r2 => some (.obj [], r2)
            | r2 => (parseMembers fuel r2).map fun p => (.obj p.1, p.2)
          else if c = '-' then parseNumberBody true rest
          else if c.isDigit then parseNumberBody false (c :: rest)
          else none

/-- Comma-separated array elements up to `]`. -/
def parseElems : Nat → List Char → Option (List Json × List Char)
  | 0, _ => none
  | fuel + 1, l =>
      match parseValue fuel l with
      | none => none
      | some (v, rest) =>
          match skipWs rest with
          | ',' :: r2 => (parseElems fuel r2).map fun p => (v :: p.1, p.2)
          | ']' :: r2 => some ([v], r2)
          | _ => none

/-- Comma-separated object members up to the closing brace. -/
def parseMembers : Nat → List Char → Option (List (String × Json) × List Char)
  | 0, _ => none
  | fuel + 1, l =>
      match skipWs l with
      | '"' :: rest =>
          match parseStringBody rest with
          | none => none
          | some (key, r2) =>
              match skipWs r2 with
              | ':' :: r3 =>
                  match parseValue fuel r3 with
                  | none => none
                  | some (v, r4) =>
                      match skipWs r4 with
                      | ',' :: r5 =>
                          (parseMembers fuel r5).map fun p =>
                            ((String.mk key, v) :: p.1, p.2)
                      | '\x7d' :: r5 => some ([(String.mk key, v)], r5)
                      | _ => none
              | _ => none
      | _ => none

end

/-- `json.Unmarshal` of a whole input: one value, nothing but
whitespace after it. -/
def parseJson (content : String) : Option Json :=
  match parseValue (2 * content.length + 2) content.toList with
  | some (v, rest) => if skipWs rest = [] then some v else none
  | none => none

/-- `isValidSourceMapContent`: valid JSON object carrying a numeric
`version ≥ 1` and a `sources` array. -/
def isValidSourceMapContent (content : String) : Bool :=
  match parseJson content with
  | some (.obj kvs) =>
      (match Json.lookup kvs "version" with
       | some (.num n) => decide (1 ≤ n)
       | _ => false) &&
      (match Json.lookup kvs "sources" with
       | some (.arr _) => true
       | _ => false)
  | _ => false

/-- The `SourceMap` struct the extractor unmarshals into. -/
structure SourceMapStruct where
  version : Int
  sources : List String
  sourcesContent : List String
deriving Repr

def asStringList (xs : List Json) : Option (List String) :=
  xs.mapM fun j =>
    match j with
    | .str s => some s
    | _ => none

/-- `json.Unmarshal(content, &SourceMap{...})`: missing fields keep
their zero values, `null` decodes to an empty slice, a wrong-typed
field is an error. -/
def unmarshalSourceMap (content : String) : Option SourceMapStruct :=
  match parseJson content with
  | some (.obj kvs) =>
      match
        (match Json.lookup kvs "version" with
         | none => some (0 : Int)
         | some (.num n) => some n
         | some .null => some 0
         | some _ => none),
        (match Json.lookup kvs "sources" with
         | none => some ([] : List String)
         | some (.arr xs) => asStringList xs
         | some .null => some []
         | some _ => none),
        (match Json.lookup kvs "sourcesContent" with
         | none => some ([] : List String)
         | some (.arr xs) => asStringList xs
         | some .null => some []
         | some _ => none) with
      | some v, some ss, some sc => some ⟨v, ss, sc⟩
      | _, _, _ => none
  | _ => none

/-! ### Finding and resolving the sourceMappingURL -/

/-- Try to match `//[@#]\s*sourceMappingURL=(.*)` at the head of the
list; on a match return the capture (the rest of the line) and the
remainder after the match. -/
def smPatternAt (l : List Char) : Option (List Char × List Char) :=
  match l with
  | '/' :: '/' :: m :: rest =>
      if m = '@' ∨ m = '#' then
        let r1 := rest.dropWhile fun c =>
          c == ' ' || c == '\t' || c == '\n' || c == '\r' ||
            c == '\x0b' || c == '\x0c'
        if "sourceMappingURL=".toList.isPrefixOf r1 then
          let afterEq := r1.drop 17
          some (afterEq.takeWhile (· ≠ '\n'), afterEq.dropWhile (· ≠ '\n'))
        else none
      else none
  | _ => none

/-- All (non-overlapping, left-to-right) captures of the
`sourceMappingURL` pattern. -/
def findAllSM : Nat → List Char → List (List Char)
  | 0, _ => []
  | _, [] => []
  | fuel + 1, c :: rest =>
      match smPatternAt (c :: rest) with
      | some (cap, remainder) => cap :: findAllSM fuel remainder
      | none => findAllSM fuel rest

/-- `findSourceMapURL`: the last match's capture, trimmed; `""` when
no comment matches. -/
def findSourceMapURL (jsBody : String) : String :=
  match (findAllSM (jsBody.length + 1) jsBody.toList).getLast? with
  | some cap => Writers.trimSpaceStr (String.mk cap)
  | none => ""

/-- `fetchSourceMapContent`: fetch, then accept only content passing
`isValidSourceMapContent`.  `fetch url = none` models a failed
download. -/
def fetchSourceMapContent (fetch : String → Option String) (mapURL : String) :
    Option String :=
  match fetch mapURL with
  | none => none
  | some content =>
      if isValidSourceMapContent content then some content else none

/-- `getSourceMapContent`: a `data:` URL is decoded by
`url.DecodeDataURI` and returned with NO validation; anything else is
resolved by `url.ToAbsoluteURL` (whose failure is an error) and then
fetched (validated). -/
def getSourceMapContent (fetch : String → Option String)
    (sourceMapURL jsURL : String) : Option String :=
  if Filesystem.startsWithStr sourceMapURL "data:" then
    Urls.decodeDataURI sourceMapURL
  else
    match Urls.toAbsoluteURL jsURL sourceMapURL with
    | none => none
    | some fullURL => fetchSourceMapContent fetch fullURL

/-- `tryFallbackMapURL`: strip the query via `url.RemoveQueryString`
(a failure there is an error and no fetch is attempted) and fetch
`<clean_url>.map`. -/
def tryFallbackMapURL (fetch : String → Option String) (jsURL : String) :
    Option String :=
  match Urls.removeQueryString jsURL with
  | none => none
  | some cleanURL => fetchSourceMapContent fetch (cleanURL ++ ".map")

/-- The content `ProcessSourceMap` ends up working with: comment URL
first (with fallback on failure), plain fallback otherwise. -/
def obtainedSourceMapContent (fetch : String → Option String)
    (jsBody jsURL : String) : Option String :=
  let sourceMapURL := findSourceMapURL jsBody
  if sourceMapURL ≠ "" then
    match getSourceMapContent fetch sourceMapURL jsURL with
    | some c => some c
    | none => tryFallbackMapURL fetch jsURL
  else tryFallbackMapURL fetch jsURL

structure SourceFile where
  path : String
  originalPath : String
  content : String
deriving Repr, DecidableEq

structure SourceMapResult where
  found : Bool
  sourceFiles : List SourceFile
deriving Repr, DecidableEq

/-- `extractSourcesToTempDir`, up to its filesystem effects: parse the
map into the struct, fail when `sources` or `sourcesContent` is
empty, and emit one `SourceFile` per index with content available,
with `sanitizeSourcePath` applied. -/
def extractSources (content : String) : Option (List SourceFile) :=
  match unmarshalSourceMap content with
  | none => none
  | some sm =>
      if sm.sources = [] ∨ sm.sourcesContent = [] then none
      else
        some ((sm.sources.zip sm.sourcesContent).map fun p =>
          { path := SourcePaths.sanitizeSourcePath p.1, originalPath := p.1,
            content := p.2 })

/-- `ProcessSourceMap`: no obtainable content is NOT an error (`ok`
with `found = false`); a content that fails struct extraction is an
error. -/
def ProcessSourceMap (fetch : String → Option String) (jsBody jsURL : String) :
    Except Unit SourceMapResult :=
  match obtainedSourceMapContent fetch jsBody jsURL with
  | none => .ok { found := false, sourceFiles := [] }
  | some content =>
      match extractSources content with
      | none => .error ()
      | some files => .ok { found := true, sourceFiles := files }

/-- The sourcemap worker's `processJob`: guards (empty hash/url,
unresolvable path, unreadable file, unextractable domain) mark
`failed`; a `ProcessSourceMap` error marks `processed` with nothing
written; otherwise every extracted source file is written via
`saveSourceFile` and the status becomes `processed`. -/
def processJob (fetch : String → Option String) (r : JsFileRec)
    (fileContent : Option String) : String × List (List String) :=
  if r.hash = "" ∨ r.url = "" then ("failed", [])
  else
    match Filesystem.getJSFilePath r.url r.hash with
    | none => ("failed", [])
    | some _ =>
        match fileContent with
        | none => ("failed", [])
        | some body =>
            match Filesystem.extractDomain r.url with
            | none => ("failed", [])
            | some domain =>
                match ProcessSourceMap fetch body r.url with
                | .error _ => ("processed", [])
                | .ok result =>
                    ("processed", result.sourceFiles.map fun sf =>
                      SourcePaths.savedSourcePathComponents domain r.hash sf.path)

theorem getJSFilePath_isSome_extractDomain {url hash : String}
    (h : (Filesystem.getJSFilePath url hash).isSome) :
    ∃ domain, Filesystem.extractDomain url = some domain := by
  rw [Filesystem.getJSFilePath] at h
  cases hd : Filesystem.extractDomain url with
  | none => rw [hd] at h; exact absurd h (by simp)
  | some d => exact ⟨d, rfl⟩

/-- C5, amended.  (1) Bytes obtained by fetching — the resolved
comment URL or the `.map` fallback — are accepted only when they pass
`isValidSourceMapContent` (JSON, numeric `version ≥ 1`, `sources`
array).  (2) A no-sourcemap outcome carries no source files.  (3)
When no content is obtained (no comment and fallback failed, or every
fetched candidate failed validation), `processJob` sets
`sourcemap_status = processed` with no error and writes nothing.
Bytes from a `data:` URI bypass the validation (see the
counterexample). -/
theorem sourcemap_validated_or_processed (fetch : String → Option String) :
    (∀ mapURL content, fetchSourceMapContent fetch mapURL = some content →
        isValidSourceMapContent content = true) ∧
      (∀ jsBody jsURL res, ProcessSourceMap fetch jsBody jsURL = .ok res →
        res.found = false → res.sourceFiles = []) ∧
      ∀ (r : JsFileRec) (body : String),
        r.hash ≠ "" → r.url ≠ "" →
        (Filesystem.getJSFilePath r.url r.hash).isSome = true →
        obtainedSourceMapContent fetch body r.url = none →
        processJob fetch r (some body) = ("processed", []) := by
  refine ⟨?_, ?_, ?_⟩
  · intro mapURL content h
    rw [fetchSourceMapContent] at h
    cases hf : fetch mapURL with
    | none => rw [hf] at h; exact absurd h (by simp)
    | some c =>
        rw [hf] at h
        dsimp only [] at h
        by_cases hv : isValidSourceMapContent c
        · rw [if_pos hv] at h
          rw [← Option.some_inj.mp h]
          exact hv
        · rw [if_neg hv] at h
          exact absurd h (by simp)
  · intro jsBody jsURL res h hfound
    rw [ProcessSourceMap] at h
    cases ho : obtainedSourceMapContent fetch jsBody jsURL with
    | none =>
        rw [ho] at h
        have := Except.ok.inj h
        rw [← this]
    | some content =>
        rw [ho] at h
        dsimp only [] at h
        cases he : extractSources content with
        | none => rw [he] at h; exact absurd h (by simp)
        | some files =>
            rw [he] at h
            have hres := Except.ok.inj h
            rw [← hres] at hfound
            exact absurd hfound (by simp)
  · intro r body hh hu hpath hobt
    obtain ⟨domain, hdom⟩ := getJSFilePath_isSome_extractDomain hpath
    rw [processJob, if_neg (by push_neg; exact ⟨hh, hu⟩)]
    cases hp : Filesystem.getJSFilePath r.url r.hash with
    | none => rw [hp] at hpath; exact absurd hpath (by simp)
    | some p =>
        rw [hdom, ProcessSourceMap, hobt]
        rfl

/-- A js_file record entering the sourcemap stage. -/
def exampleSourcemapRecord : JsFileRec :=
  Writers.mkExtractionRecord "s1" "http://x.test/a.js" "h1" "normal"

/-- A fetch oracle on which every download fails. -/
def noFetch : String → Option String := fun _ => none

/-- A JS body whose `sourceMappingURL` is a `data:` URI holding a
sourcemap WITHOUT a `version` field. -/
def exampleDataJsBody : String :=
  "//# sourceMappingURL=data:application/json,\x7b\"sources\":[\"a.js\"],\"sourcesContent\":[\"x\"]\x7d"

/-- The payload of that data URI. -/
def exampleDataPayload : String :=
  "\x7b\"sources\":[\"a.js\"],\"sourcesContent\":[\"x\"]\x7d"

/-- Counterexample to C5 as stated: the decoded `data:` payload fails
`isValidSourceMapContent` (no numeric `version ≥ 1`), yet the stage
accepts it — `ProcessSourceMap` reports a found sourcemap with a
source file, and `processJob` writes it while flipping the status to
`processed`. -/
theorem sourcemap_dataURI_skips_validation :
    isValidSourceMapContent exampleDataPayload = false ∧
      Urls.decodeDataURI (findSourceMapURL exampleDataJsBody) = some exampleDataPayload ∧
      ProcessSourceMap noFetch exampleDataJsBody "http://x.test/a.js" =
        .ok { found := true,
              sourceFiles := [{ path := "a.js", originalPath := "a.js",
                                content := "x" }] } ∧
      (processJob noFetch exampleSourcemapRecord (some exampleDataJsBody)).1 =
        "processed" ∧
      (processJob noFetch exampleSourcemapRecord (some exampleDataJsBody)).2 ≠ [] := by
  refine ⟨rfl, rfl, rfl, rfl, ?_⟩
  intro h
  exact absurd (congrArg List.length h) (by decide)

/-- Witness for `sourcemap_validated_or_processed`: a JS body with no
sourcemap comment, on an oracle where the `.map` fallback fetch also
fails, ends `processed` with nothing written. -/
theorem sourcemap_validated_or_processed_witness :
    processJob noFetch exampleSourcemapRecord (some "var x;") = ("processed", []) :=
  (sourcemap_validated_or_processed noFetch).2.2 exampleSourcemapRecord "var x;"
    (by decide) (by decide) (by decide) rfl

end Sourcemap

end JSHunter
